import Mathlib

/-!
# Verification of the `hocon` configuration library (Go)

Shallow embedding of the HOCON parser / resolver / accessor code
(`parser.go`, `config.go`) and proofs about the behaviours its
specification describes.

## Modelling conventions

* Go's `Value` interface hierarchy (`config.go`) becomes the inductive
  type `Hocon.Value`.  `Object` is a Go `map[string]Value`; we model it
  as an association list `List (String × Value)` with unique keys.  Go
  map iteration order is unspecified; the association list fixes one
  order, and every property we state is either order-insensitive or is
  evaluated on concrete inputs where the order does not matter.
* Go's `nil` interface value (which the resolver stores into a slot for
  an unresolved optional substitution, `v[key] = nil`) is the
  constructor `Value.goNil`.  Calling `.Type()` on it would panic in Go;
  `Value.typeTag` therefore returns `GoResult.panics` on it.
* A Go function that can panic is modelled with the `GoResult` wrapper:
  `GoResult.panics` is a run-time panic (e.g. a failed interface type
  assertion), `GoResult.returns a` is a normal return.
* `float64` literals are modelled as the exact rational number they
  denote (`ℚ`); the counterexamples only use values such as `1.5` that
  are exactly representable in binary floating point, so no rounding is
  lost.  Go's `int64` wrap-around is modelled explicitly by `wrap64`.
* Machine integers (`int`, `time.Duration`) are modelled as `Int` with
  explicit wrap-around where overflow matters.
-/

namespace Hocon

/-- The tagged value tree of `config.go`.  One constructor per concrete Go
type implementing the `Value` interface, plus `goNil` for the Go `nil`
interface value (see module comment). -/
inductive Value where
  /-- `Object` — `map[string]Value`, modelled as an association list. -/
  | object (entries : List (String × Value))
  /-- `Array` — `[]Value`. -/
  | array (xs : List Value)
  /-- `String`. -/
  | str (s : String)
  /-- `Int`. -/
  | int (n : Int)
  /-- `Float64`, modelled as the exact rational the float denotes. -/
  | float (q : ℚ)
  /-- `Boolean`. -/
  | bool (b : Bool)
  /-- `Null`. -/
  | null
  /-- `Duration` — nanosecond count (`time.Duration` is an `int64`). -/
  | duration (ns : Int)
  /-- `*Substitution{path, optional}`. -/
  | substitution (path : String) (optional : Bool)
  /-- `concatenation` — a slice of values. -/
  | concat (xs : List Value)
  /-- `*valueWithAlternative{value, alternative}`; the alternative is a
  `*Substitution`, stored here as its path and optional flag. -/
  | valueWithAlternative (v : Value) (altPath : String) (altOptional : Bool)
  /-- The Go `nil` interface value. -/
  | goNil

mutual

/-- Boolean structural equality on `Value` (needed because the nested
`List` occurrences defeat automatic `DecidableEq` derivation). -/
def Value.beq : Value → Value → Bool
  | .object es₁, .object es₂ => beqEntries es₁ es₂
  | .array xs₁, .array xs₂ => beqValues xs₁ xs₂
  | .str s₁, .str s₂ => s₁ = s₂
  | .int n₁, .int n₂ => n₁ = n₂
  | .float q₁, .float q₂ => q₁ = q₂
  | .bool b₁, .bool b₂ => b₁ = b₂
  | .null, .null => true
  | .duration n₁, .duration n₂ => n₁ = n₂
  | .substitution p₁ o₁, .substitution p₂ o₂ => p₁ = p₂ && o₁ = o₂
  | .concat xs₁, .concat xs₂ => beqValues xs₁ xs₂
  | .valueWithAlternative v₁ p₁ o₁, .valueWithAlternative v₂ p₂ o₂ =>
      Value.beq v₁ v₂ && p₁ = p₂ && o₁ = o₂
  | .goNil, .goNil => true
  | _, _ => false

/-- Boolean equality on object entry lists. -/
def beqEntries : List (String × Value) → List (String × Value) → Bool
  | [], [] => true
  | (k₁, v₁) :: r₁, (k₂, v₂) :: r₂ => k₁ = k₂ && Value.beq v₁ v₂ && beqEntries r₁ r₂
  | _, _ => false

/-- Boolean equality on value lists. -/
def beqValues : List Value → List Value → Bool
  | [], [] => true
  | v₁ :: r₁, v₂ :: r₂ => Value.beq v₁ v₂ && beqValues r₁ r₂
  | _, _ => false

end

mutual

theorem Value.beq_iff : ∀ a b : Value, Value.beq a b = true ↔ a = b
  | .object es₁, .object es₂ => by
      simp only [Value.beq, beqEntries_iff es₁ es₂, Value.object.injEq]
  | .array xs₁, .array xs₂ => by
      simp only [Value.beq, beqValues_iff xs₁ xs₂, Value.array.injEq]
  | .str s₁, .str s₂ => by simp [Value.beq]
  | .int n₁, .int n₂ => by simp [Value.beq]
  | .float q₁, .float q₂ => by simp [Value.beq]
  | .bool b₁, .bool b₂ => by simp [Value.beq]
  | .null, .null => by simp [Value.beq]
  | .duration n₁, .duration n₂ => by simp [Value.beq]
  | .substitution p₁ o₁, .substitution p₂ o₂ => by simp [Value.beq]
  | .concat xs₁, .concat xs₂ => by
      simp only [Value.beq, beqValues_iff xs₁ xs₂, Value.concat.injEq]
  | .valueWithAlternative v₁ p₁ o₁, .valueWithAlternative v₂ p₂ o₂ => by
      simp [Value.beq, Value.beq_iff v₁ v₂, and_assoc]
  | .goNil, .goNil => by simp [Value.beq]
  | .object _, .array _ => by simp [Value.beq]
  | .object _, .str _ => by simp [Value.beq]
  | .object _, .int _ => by simp [Value.beq]
  | .object _, .float _ => by simp [Value.beq]
  | .object _, .bool _ => by simp [Value.beq]
  | .object _, .null => by simp [Value.beq]
  | .object _, .duration _ => by simp [Value.beq]
  | .object _, .substitution _ _ => by simp [Value.beq]
  | .object _, .concat _ => by simp [Value.beq]
  | .object _, .valueWithAlternative _ _ _ => by simp [Value.beq]
  | .object _, .goNil => by simp [Value.beq]
  | .array _, .object _ => by simp [Value.beq]
  | .array _, .str _ => by simp [Value.beq]
  | .array _, .int _ => by simp [Value.beq]
  | .array _, .float _ => by simp [Value.beq]
  | .array _, .bool _ => by simp [Value.beq]
  | .array _, .null => by simp [Value.beq]
  | .array _, .duration _ => by simp [Value.beq]
  | .array _, .substitution _ _ => by simp [Value.beq]
  | .array _, .concat _ => by simp [Value.beq]
  | .array _, .valueWithAlternative _ _ _ => by simp [Value.beq]
  | .array _, .goNil => by simp [Value.beq]
  | .str _, .object _ => by simp [Value.beq]
  | .str _, .array _ => by simp [Value.beq]
  | .str _, .int _ => by simp [Value.beq]
  | .str _, .float _ => by simp [Value.beq]
  | .str _, .bool _ => by simp [Value.beq]
  | .str _, .null => by simp [Value.beq]
  | .str _, .duration _ => by simp [Value.beq]
  | .str _, .substitution _ _ => by simp [Value.beq]
  | .str _, .concat _ => by simp [Value.beq]
  | .str _, .valueWithAlternative _ _ _ => by simp [Value.beq]
  | .str _, .goNil => by simp [Value.beq]
  | .int _, .object _ => by simp [Value.beq]
  | .int _, .array _ => by simp [Value.beq]
  | .int _, .str _ => by simp [Value.beq]
  | .int _, .float _ => by simp [Value.beq]
  | .int _, .bool _ => by simp [Value.beq]
  | .int _, .null => by simp [Value.beq]
  | .int _, .duration _ => by simp [Value.beq]
  | .int _, .substitution _ _ => by simp [Value.beq]
  | .int _, .concat _ => by simp [Value.beq]
  | .int _, .valueWithAlternative _ _ _ => by simp [Value.beq]
  | .int _, .goNil => by simp [Value.beq]
  | .float _, .object _ => by simp [Value.beq]
  | .float _, .array _ => by simp [Value.beq]
  | .float _, .str _ => by simp [Value.beq]
  | .float _, .int _ => by simp [Value.beq]
  | .float _, .bool _ => by simp [Value.beq]
  | .float _, .null => by simp [Value.beq]
  | .float _, .duration _ => by simp [Value.beq]
  | .float _, .substitution _ _ => by simp [Value.beq]
  | .float _, .concat _ => by simp [Value.beq]
  | .float _, .valueWithAlternative _ _ _ => by simp [Value.beq]
  | .float _, .goNil => by simp [Value.beq]
  | .bool _, .object _ => by simp [Value.beq]
  | .bool _, .array _ => by simp [Value.beq]
  | .bool _, .str _ => by simp [Value.beq]
  | .bool _, .int _ => by simp [Value.beq]
  | .bool _, .float _ => by simp [Value.beq]
  | .bool _, .null => by simp [Value.beq]
  | .bool _, .duration _ => by simp [Value.beq]
  | .bool _, .substitution _ _ => by simp [Value.beq]
  | .bool _, .concat _ => by simp [Value.beq]
  | .bool _, .valueWithAlternative _ _ _ => by simp [Value.beq]
  | .bool _, .goNil => by simp [Value.beq]
  | .null, .object _ => by simp [Value.beq]
  | .null, .array _ => by simp [Value.beq]
  | .null, .str _ => by simp [Value.beq]
  | .null, .int _ => by simp [Value.beq]
  | .null, .float _ => by simp [Value.beq]
  | .null, .bool _ => by simp [Value.beq]
  | .null, .duration _ => by simp [Value.beq]
  | .null, .substitution _ _ => by simp [Value.beq]
  | .null, .concat _ => by simp [Value.beq]
  | .null, .valueWithAlternative _ _ _ => by simp [Value.beq]
  | .null, .goNil => by simp [Value.beq]
  | .duration _, .object _ => by simp [Value.beq]
  | .duration _, .array _ => by simp [Value.beq]
  | .duration _, .str _ => by simp [Value.beq]
  | .duration _, .int _ => by simp [Value.beq]
  | .duration _, .float _ => by simp [Value.beq]
  | .duration _, .bool _ => by simp [Value.beq]
  | .duration _, .null => by simp [Value.beq]
  | .duration _, .substitution _ _ => by simp [Value.beq]
  | .duration _, .concat _ => by simp [Value.beq]
  | .duration _, .valueWithAlternative _ _ _ => by simp [Value.beq]
  | .duration _, .goNil => by simp [Value.beq]
  | .substitution _ _, .object _ => by simp [Value.beq]
  | .substitution _ _, .array _ => by simp [Value.beq]
  | .substitution _ _, .str _ => by simp [Value.beq]
  | .substitution _ _, .int _ => by simp [Value.beq]
  | .substitution _ _, .float _ => by simp [Value.beq]
  | .substitution _ _, .bool _ => by simp [Value.beq]
  | .substitution _ _, .null => by simp [Value.beq]
  | .substitution _ _, .duration _ => by simp [Value.beq]
  | .substitution _ _, .concat _ => by simp [Value.beq]
  | .substitution _ _, .valueWithAlternative _ _ _ => by simp [Value.beq]
  | .substitution _ _, .goNil => by simp [Value.beq]
  | .concat _, .object _ => by simp [Value.beq]
  | .concat _, .array _ => by simp [Value.beq]
  | .concat _, .str _ => by simp [Value.beq]
  | .concat _, .int _ => by simp [Value.beq]
  | .concat _, .float _ => by simp [Value.beq]
  | .concat _, .bool _ => by simp [Value.beq]
  | .concat _, .null => by simp [Value.beq]
  | .concat _, .duration _ => by simp [Value.beq]
  | .concat _, .substitution _ _ => by simp [Value.beq]
  | .concat _, .valueWithAlternative _ _ _ => by simp [Value.beq]
  | .concat _, .goNil => by simp [Value.beq]
  | .valueWithAlternative _ _ _, .object _ => by simp [Value.beq]
  | .valueWithAlternative _ _ _, .array _ => by simp [Value.beq]
  | .valueWithAlternative _ _ _, .str _ => by simp [Value.beq]
  | .valueWithAlternative _ _ _, .int _ => by simp [Value.beq]
  | .valueWithAlternative _ _ _, .float _ => by simp [Value.beq]
  | .valueWithAlternative _ _ _, .bool _ => by simp [Value.beq]
  | .valueWithAlternative _ _ _, .null => by simp [Value.beq]
  | .valueWithAlternative _ _ _, .duration _ => by simp [Value.beq]
  | .valueWithAlternative _ _ _, .substitution _ _ => by simp [Value.beq]
  | .valueWithAlternative _ _ _, .concat _ => by simp [Value.beq]
  | .valueWithAlternative _ _ _, .goNil => by simp [Value.beq]
  | .goNil, .object _ => by simp [Value.beq]
  | .goNil, .array _ => by simp [Value.beq]
  | .goNil, .str _ => by simp [Value.beq]
  | .goNil, .int _ => by simp [Value.beq]
  | .goNil, .float _ => by simp [Value.beq]
  | .goNil, .bool _ => by simp [Value.beq]
  | .goNil, .null => by simp [Value.beq]
  | .goNil, .duration _ => by simp [Value.beq]
  | .goNil, .substitution _ _ => by simp [Value.beq]
  | .goNil, .concat _ => by simp [Value.beq]
  | .goNil, .valueWithAlternative _ _ _ => by simp [Value.beq]

theorem beqEntries_iff : ∀ a b : List (String × Value), beqEntries a b = true ↔ a = b
  | [], [] => by simp [beqEntries]
  | (k₁, v₁) :: r₁, (k₂, v₂) :: r₂ => by
      simp [beqEntries, Value.beq_iff v₁ v₂, beqEntries_iff r₁ r₂, and_assoc]
  | [], _ :: _ => by simp [beqEntries]
  | _ :: _, [] => by simp [beqEntries]

theorem beqValues_iff : ∀ a b : List Value, beqValues a b = true ↔ a = b
  | [], [] => by simp [beqValues]
  | v₁ :: r₁, v₂ :: r₂ => by
      simp [beqValues, Value.beq_iff v₁ v₂, beqValues_iff r₁ r₂]
  | [], _ :: _ => by simp [beqValues]
  | _ :: _, [] => by simp [beqValues]

end

instance : DecidableEq Value := fun a b =>
  decidable_of_iff (Value.beq a b = true) (Value.beq_iff a b)

instance {ε α : Type} [DecidableEq ε] [DecidableEq α] : DecidableEq (Except ε α) :=
  fun a b =>
    match a, b with
    | .ok x, .ok y => decidable_of_iff (x = y) (by simp)
    | .error e, .error f => decidable_of_iff (e = f) (by simp)
    | .ok _, .error _ => isFalse (by simp)
    | .error _, .ok _ => isFalse (by simp)

/-- Outcome of running a Go function that may panic. -/
inductive GoResult (α : Type) where
  /-- The function panicked (e.g. failed interface type assertion). -/
  | panics
  /-- The function returned normally. -/
  | returns (a : α)
  deriving DecidableEq

/-- The `Type` enumeration of `config.go`. -/
inductive TypeTag where
  | objectType | stringType | arrayType | numberType | booleanType
  | nullType | substitutionType | concatenationType | valueWithAlternativeType
  deriving DecidableEq, Repr

/-- `Value.Type()` from `config.go`.  Note that `Duration.Type()` returns
`StringType` in the source, and that calling `Type()` on a `nil`
interface value panics. -/
def Value.typeTag : Value → GoResult TypeTag
  | .object _ => .returns .objectType
  | .array _ => .returns .arrayType
  | .str _ => .returns .stringType
  | .int _ => .returns .numberType
  | .float _ => .returns .numberType
  | .bool _ => .returns .booleanType
  | .null => .returns .nullType
  | .duration _ => .returns .stringType
  | .substitution _ _ => .returns .substitutionType
  | .concat _ => .returns .concatenationType
  | .valueWithAlternative _ _ _ => .returns .valueWithAlternativeType
  | .goNil => .panics

/-- Association-list lookup, modelling Go map indexing `m[k]`. -/
def lookupKey {α : Type} : List (String × α) → String → Option α
  | [], _ => none
  | (k, v) :: rest, key => if k = key then some v else lookupKey rest key

/-- Association-list update, modelling Go map assignment `m[k] = v`:
replaces the entry in place if the key is present, appends otherwise. -/
def setKey {α : Type} : List (String × α) → String → α → List (String × α)
  | [], key, v => [(key, v)]
  | (k, w) :: rest, key, v =>
      if k = key then (k, v) :: rest else (k, w) :: setKey rest key v

/-- Keys of an association list. -/
def keysOf {α : Type} (es : List (String × α)) : List String := es.map Prod.fst

/-- Entry list of an HOCON object. -/
abbrev Entries := List (String × Value)

/-- Helper for `splitOnDot`: consumes the characters, accumulating the
current (reversed) segment. -/
def splitOnDotAux : List Char → List Char → List String
  | [], acc => [String.mk acc.reverse]
  | c :: rest, acc =>
      if c = '.' then String.mk acc.reverse :: splitOnDotAux rest []
      else splitOnDotAux rest (c :: acc)

/-- `strings.Split(path, ".")` from Go, for the one-character separator
used by `Object.find`: the list of segments between occurrences of `'.'`
(always non-empty; `""` splits to `[""]`). -/
def splitOnDot (p : String) : List String := splitOnDotAux p.data []

/-- The leading-segment descent loop of `Object.find` (`config.go`):
for each leading key, look the key up (a missing key returns Go `nil`
from `find`, modelled as `.returns none`) and then perform the
unchecked type assertion `value.(Object)`, which panics whenever the
value is not an `Object`. -/
def findLoop : Entries → List String → GoResult (Option Entries)
  | o, [] => .returns (some o)
  | o, key :: rest =>
      match lookupKey o key with
      | none => .returns none
      | some (Value.object o') => findLoop o' rest
      | some _ => .panics

/-- `Object.find(path)` from `config.go`: split the dotted path, walk all
segments but the last through `findLoop`, then index the final object
with the last segment (Go map indexing with a missing key yields `nil`,
i.e. `none`). -/
def Object.find (o : Entries) (path : String) : GoResult (Option Value) :=
  let keys := splitOnDot path
  match findLoop o keys.dropLast with
  | .panics => .panics
  | .returns none => .returns none
  | .returns (some o') => .returns (lookupKey o' (keys.getLastD ""))

mutual

/-- `mergeObjects(existing, new)` from `parser.go`: for each entry of
`new` (in entry order; Go iterates the map in unspecified order), if
both the existing and the new value at the key are `Object`s, merge
recursively, otherwise assign the new value.  Go mutates `existing` in
place; we return the updated list.  Go's `existingValue.Type()` call
would panic on a `nil` interface value; such values never occur in
parser output, and the model treats `goNil` like any other non-`Object`
value here. -/
def mergeObjects : Entries → Entries → Entries
  | existing, [] => existing
  | existing, (k, v) :: rest =>
      mergeObjects (setKey existing k (mergeValueInto (lookupKey existing k) v)) rest
termination_by _ex new => sizeOf new
decreasing_by
  all_goals simp_wf
  all_goals omega

/-- The per-key combination inside `mergeObjects`: when both the
existing and the new value are `Object`s merge recursively, otherwise
the new value is assigned unchanged. -/
def mergeValueInto : Option Value → Value → Value
  | some (Value.object eo), Value.object no => Value.object (mergeObjects eo no)
  | _, v => v
termination_by _ex v => sizeOf v
decreasing_by
  all_goals simp_wf

end

mutual

/-- `mergeObjects(existing, new)` from `parser.go` with Go's nil-panic
behaviour: the condition `ok && existingValue.Type() == ObjectType &&
value.Type() == ObjectType` short-circuits, so `existingValue.Type()`
panics when the existing value at the key is a stored nil interface,
and `value.Type()` panics when the existing value is an `Object` and
the new value is nil; every other combination assigns (or recursively
merges) without calling `Type()` on a nil. -/
def mergeObjectsGo : Entries → Entries → GoResult Entries
  | existing, [] => .returns existing
  | existing, (k, v) :: rest =>
      match mergeValueIntoGo (lookupKey existing k) v with
      | .panics => .panics
      | .returns v' => mergeObjectsGo (setKey existing k v') rest
termination_by _ex new => sizeOf new
decreasing_by
  all_goals simp_wf
  all_goals omega

/-- The per-key combination inside the nil-aware `mergeObjects`: `none`
(key absent, `ok` false) assigns without any `Type()` call; an existing
stored nil panics at `existingValue.Type()`; an existing `Object`
panics at `value.Type()` when the new value is nil, merges recursively
when it is an `Object`, and is overwritten otherwise; an existing
non-`Object` non-nil value short-circuits and is overwritten. -/
def mergeValueIntoGo : Option Value → Value → GoResult Value
  | none, v => .returns v
  | some Value.goNil, _ => .panics
  | some (Value.object eo), v =>
      match v with
      | Value.goNil => .panics
      | Value.object no =>
          match mergeObjectsGo eo no with
          | .panics => .panics
          | .returns m => .returns (Value.object m)
      | _ => .returns v
  | some _, v => .returns v
termination_by _ex v => sizeOf v
decreasing_by
  all_goals simp_wf

end

/-- `Object.copy()` from `config.go`: a fresh object whose `Object`
values are copied recursively and whose other values (including arrays)
are shared verbatim.  `copy` uses the checked assertion `v.(Object)`,
so it never calls a method on a nil interface and never panics. -/
def copyObject : Entries → Entries
  | [] => []
  | (k, Value.object sub) :: rest => (k, Value.object (copyObject sub)) :: copyObject rest
  | (k, v) :: rest => (k, v) :: copyObject rest

/-- `Config.WithFallback(fallback)` from `config.go`, on the root values:
if both roots are `Object`s (checked assertions, no panic), deep-merge
the current root into a recursive copy of the fallback's root — the
merge itself can panic on stored Go nils; otherwise return the current
config unchanged. -/
def withFallback (c fallback : Value) : GoResult Value :=
  match c, fallback with
  | .object cur, .object fb =>
      match mergeObjectsGo (copyObject fb) cur with
      | .panics => .panics
      | .returns m => .returns (.object m)
  | _, _ => .returns c

/-- `Substitution.String()` from `config.go`:
`"${" + ("?" if optional) + path + "}"`. -/
def substitutionString (path : String) (optional : Bool) : String :=
  "$\x7b" ++ (if optional then "?" else "") ++ path ++ "\x7d"

/-- Outcome of `processSubstitutionType` (`parser.go`), which in Go
returns a `(Value, error)` pair — or panics inside `root.find`. -/
inductive SubstResult where
  /-- `root.find` panicked (non-`Object` intermediate path segment). -/
  | panics
  /-- `(nil, error)` — the non-optional substitution could not be resolved. -/
  | failed (msg : String)
  /-- `(value, nil)` — resolved to a value. -/
  | resolved (v : Value)
  /-- `(nil, nil)` — optional substitution left unresolved. -/
  | unresolvedOptional
  deriving DecidableEq

/-- The `else` chain of `processSubstitutionType` once `foundValue` is
the nil interface: the environment, then the optional flag. -/
def substNotFound (env : String → Option String) (path : String)
    (optional : Bool) : SubstResult :=
  match env path with
  | some s => .resolved (.str s)
  | none =>
      if !optional then
        .failed ("could not resolve substitution: " ++
          substitutionString path optional ++ " to a value")
      else .unresolvedOptional

/-- `processSubstitutionType(root, substitution)` from `parser.go`.
The process environment `os.LookupEnv` is modelled as the function
argument `env`.  Go tests `foundValue != nil`: both a missing path and
a stored Go `nil` (which the resolver writes into the slot of an
unresolved optional substitution) are the nil interface, so both fall
through to the environment / optional chain. -/
def processSubstitutionType (env : String → Option String) (root : Entries)
    (path : String) (optional : Bool) : SubstResult :=
  match Object.find root path with
  | .panics => .panics
  | .returns (some v) =>
      if v = Value.goNil then substNotFound env path optional
      else .resolved v
  | .returns none => substNotFound env path optional

/-- The duplicate-key handling of `extractObject` (`parser.go`, the
`case equalsToken, colonToken` branch): after a value has been extracted
for `key`, combine it with the value already present at `key` (if any)
and store the result.  The branch structure mirrors the Go `Type()`
tests exactly; `Type()` is determined by the constructor. -/
def insertValue (object : Entries) (key : String) (value : Value) : Entries :=
  match lookupKey object key with
  | none => setKey object key value
  | some existingValue =>
      let newValue :=
        match existingValue, value with
        | .object eo, .object no => Value.object (mergeObjects eo no)
        | .substitution _ _, .substitution _ _ => Value.concat [existingValue, value]
        | .object _, .substitution _ _ => Value.concat [existingValue, value]
        | .substitution _ _, .object _ => Value.concat [existingValue, value]
        | .valueWithAlternative _ _ _, .substitution p o =>
            Value.valueWithAlternative existingValue p o
        | _, .substitution p o => Value.valueWithAlternative existingValue p o
        | _, _ => value
      setKey object key newValue

/-- Membership in the character class of the regular expression
`[\x20-\x40|\x5b-\x60|\x7b-\x7e]+` used by `String.String()` in
`config.go` (the literal `|` inside the class lies in `\x7b-\x7e`, so
the class is exactly the union of the three ranges). -/
def goPunctChar (c : Char) : Bool :=
  (0x20 ≤ c.toNat && c.toNat ≤ 0x40) ||
  (0x5b ≤ c.toNat && c.toNat ≤ 0x60) ||
  (0x7b ≤ c.toNat && c.toNat ≤ 0x7e)

/-- `strings.Trim(s, "\"")`: remove all leading and trailing double
quotes. -/
def trimQuotes (s : String) : String :=
  String.mk (((s.data.dropWhile (fun c => c = '"')).reverse.dropWhile
    (fun c => c = '"')).reverse)

mutual

/-- `Value.String()` from `config.go` (the debug rendering).  Faithful
for all constructors except: `Float64` (Go shortest round-trip float
formatting) and `Duration` (Go `time.Duration.String()`), which are
rendered in an abbreviated form here, and `goNil`, on which Go would
panic — none of these three arms is relied upon by any theorem in this
file (the accessor claims only exercise the not-found branches). -/
def renderValue : Value → String
  | .object es => "\x7b" ++ renderEntries es ++ "\x7d"
  | .array [] => "[]"
  | .array (v :: rest) => "[" ++ renderValue v ++ renderArrayRest rest ++ "]"
  | .str s =>
      let str := trimQuotes s
      if str = "" then "\"\""
      else if str.data.any goPunctChar then "\"" ++ str ++ "\""
      else str
  | .int n => toString n
  | .float q => toString q.num ++ "/" ++ toString q.den
  | .bool b => if b then "true" else "false"
  | .null => "null"
  | .duration ns => toString ns ++ "ns"
  | .substitution p o => substitutionString p o
  | .concat xs => renderConcatItems xs
  | .valueWithAlternative v p o =>
      "(" ++ renderValue v ++ " | " ++ substitutionString p o ++ ")"
  | .goNil => "<nil>"

/-- Object body rendering: `k1:v1, k2:v2`. -/
def renderEntries : Entries → String
  | [] => ""
  | [(k, v)] => k ++ ":" ++ renderValue v
  | (k, v) :: rest => k ++ ":" ++ renderValue v ++ ", " ++ renderEntries rest

/-- Array tail rendering: `,v2,v3`. -/
def renderArrayRest : List Value → String
  | [] => ""
  | v :: rest => "," ++ renderValue v ++ renderArrayRest rest

/-- Concatenation rendering: the renders joined without separators. -/
def renderConcatItems : List Value → String
  | [] => ""
  | v :: rest => renderValue v ++ renderConcatItems rest

end

/-- `Config.Get(path)` from `config.go`: `nil` when the root is not an
`Object` (`c.root.Type()` on a `nil` interface root would panic),
otherwise `root.(Object).find(path)`. -/
def configGet (root : Value) (path : String) : GoResult (Option Value) :=
  match root with
  | .object es => Object.find es path
  | .goNil => .panics
  | _ => .returns none

/-- `Config.GetString(path)` from `config.go`: empty string when the
value is not found, otherwise `value.String()`. -/
def getString (root : Value) (path : String) : GoResult String :=
  match configGet root path with
  | .panics => .panics
  | .returns none => .returns ""
  | .returns (some v) => .returns (renderValue v)

/-- `strconv.Atoi`: an optional sign followed by decimal digits;
anything else is an error (`none`). -/
def goAtoi (s : String) : Option Int := s.toInt?

/-- `Config.GetInt(path)` from `config.go`: zero when the value is not
found; an `Int` is returned directly; a `String` is parsed with
`strconv.Atoi` (panicking on a parse error); anything else panics. -/
def getInt (root : Value) (path : String) : GoResult Int :=
  match configGet root path with
  | .panics => .panics
  | .returns none => .returns 0
  | .returns (some (.int n)) => .returns n
  | .returns (some (.str s)) =>
      match goAtoi s with
      | some n => .returns n
      | none => .panics
  | .returns (some _) => .panics

/-- `Config.GetObject(path)` from `config.go`: `nil` when not found,
otherwise the unchecked cast `value.(Object)` (panics on other types). -/
def getObject (root : Value) (path : String) : GoResult (Option Entries) :=
  match configGet root path with
  | .panics => .panics
  | .returns none => .returns none
  | .returns (some (.object es)) => .returns (some es)
  | .returns (some _) => .panics

/-- `Config.GetArray(path)` from `config.go`: `nil` when not found,
otherwise the unchecked cast `value.(Array)` (panics on other types). -/
def getArray (root : Value) (path : String) : GoResult (Option (List Value)) :=
  match configGet root path with
  | .panics => .panics
  | .returns none => .returns none
  | .returns (some (.array xs)) => .returns (some xs)
  | .returns (some _) => .panics

/-- `Config.GetBoolean(path)` from `config.go`: `false` when not found;
`Boolean` returned directly; `String` compared against the boolean
synonyms (panicking otherwise); anything else panics. -/
def getBoolean (root : Value) (path : String) : GoResult Bool :=
  match configGet root path with
  | .panics => .panics
  | .returns none => .returns false
  | .returns (some (.bool b)) => .returns b
  | .returns (some (.str s)) =>
      if s = "true" || s = "yes" || s = "on" then .returns true
      else if s = "false" || s = "no" || s = "off" then .returns false
      else .panics
  | .returns (some _) => .panics

/-- `Config.GetDuration(path)` from `config.go`: zero when not found,
otherwise the unchecked cast `value.(Duration)` (panics on other
types). -/
def getDuration (root : Value) (path : String) : GoResult Int :=
  match configGet root path with
  | .panics => .panics
  | .returns none => .returns 0
  | .returns (some (.duration ns)) => .returns ns
  | .returns (some _) => .panics

/-! ## Parser pieces: durations, includes, multi-line strings -/

/-- The duration-unit switch of `extractDurationUnit` (`parser.go`),
as a nanosecond count (`time.Duration` constants); `0` means "no
unit". -/
def durationUnitNanos (tok : String) : Int :=
  if tok = "ns" ∨ tok = "nano" ∨ tok = "nanos" ∨ tok = "nanosecond" ∨
      tok = "nanoseconds" then 1
  else if tok = "us" ∨ tok = "micro" ∨ tok = "micros" ∨ tok = "microsecond" ∨
      tok = "microseconds" then 1000
  else if tok = "ms" ∨ tok = "milli" ∨ tok = "millis" ∨ tok = "millisecond" ∨
      tok = "milliseconds" then 1000000
  else if tok = "s" ∨ tok = "second" ∨ tok = "seconds" then 1000000000
  else if tok = "m" ∨ tok = "minute" ∨ tok = "minutes" then 60000000000
  else if tok = "h" ∨ tok = "hour" ∨ tok = "hours" then 3600000000000
  else if tok = "d" ∨ tok = "day" ∨ tok = "days" then 24 * 3600000000000
  else 0

/-- `extractDurationUnit` (`parser.go`): the unit switch applies only
when the next token sits on the same line as the numeric literal
(`nextCharacter != '\n' && p.scanner.Line == p.scanner.Pos().Line`),
abstracted as the boolean `sameLine`. -/
def extractDurationUnit (sameLine : Bool) (tok : String) : Int :=
  if sameLine then durationUnitNanos tok else 0

/-- Go's wrap-around for a signed 64-bit integer. -/
def wrap64 (z : Int) : Int := (z + 2 ^ 63) % 2 ^ 64 - 2 ^ 63

/-- Go's conversion of a `float64` to an `int64` (`time.Duration(value)`
for a float `value`): truncation toward zero.  The float is modelled as
the exact rational it denotes; `Int.div` truncates toward zero. -/
def goTruncRat (q : ℚ) : Int := Int.tdiv q.num (q.den : Int)

/-- The `scanner.Int` branch of `extractValue` (`parser.go`): parse the
integer, then `Duration(time.Duration(value) * durationUnit)` when a
duration unit follows on the same line, else `Int(value)`.  The `int64`
multiplication wraps on overflow. -/
def extractValueIntCase (n : Int) (sameLine : Bool) (tok : String) : Value :=
  let u := extractDurationUnit sameLine tok
  if u ≠ 0 then .duration (wrap64 (n * u)) else .int n

/-- The `scanner.Float` branch of `extractValue` (`parser.go`):
`Duration(time.Duration(value) * durationUnit)` converts the float to
`int64` (truncating toward zero) BEFORE multiplying by the unit, else
`Float64(value)`. -/
def extractValueFloatCase (q : ℚ) (sameLine : Bool) (tok : String) : Value :=
  let u := extractDurationUnit sameLine tok
  if u ≠ 0 then .duration (wrap64 (goTruncRat q * u)) else .float q

/-- The duration-unit table exactly as the specification's §6 states it
(suffix word ↦ nanosecond count, `day = 24 h`), written from the spec's
words for comparison against the code's `durationUnitNanos`. -/
def specDurationUnit (w : String) : Option Int :=
  if w = "ns" ∨ w = "nano" ∨ w = "nanos" ∨ w = "nanosecond" ∨
      w = "nanoseconds" then some 1
  else if w = "us" ∨ w = "micro" ∨ w = "micros" ∨ w = "microsecond" ∨
      w = "microseconds" then some 1000
  else if w = "ms" ∨ w = "milli" ∨ w = "millis" ∨ w = "millisecond" ∨
      w = "milliseconds" then some 1000000
  else if w = "s" ∨ w = "second" ∨ w = "seconds" then some 1000000000
  else if w = "m" ∨ w = "minute" ∨ w = "minutes" then some 60000000000
  else if w = "h" ∨ w = "hour" ∨ w = "hours" then some 3600000000000
  else if w = "d" ∨ w = "day" ∨ w = "days" then some (24 * 3600000000000)
  else none

/-- Error kinds of the parser/resolver (`errors.go` constructors used by
`parser.go`; only the kind and, where a claim depends on it, the message
text are modelled — positions are not). -/
inductive HErr where
  | invalidConcatenation
  | invalidValue (msg : String)
  | substitutionFailure (msg : String)
  | unclosedMultiLineString
  | couldNotParseResource
  | goPanic
  | outOfFuel
  deriving DecidableEq

/-- The outcome of `os.Open` on the include path followed by scanning
the opened file, abstracting the file system for
`parseIncludedResource`: the file may be missing (`os.ErrNotExist`),
opening may fail some other way, or the file opens and its root is
either an array (first token `[`) or an object whose parse result is
`parsed`. -/
inductive OpenResult where
  | errNotExist
  | errOther
  | opened (rootIsArray : Bool) (parsed : Except HErr Entries)

/-- `parseIncludedResource` (`parser.go`) after `validateIncludeValue`
has produced `include{path, required}`: a missing file on a non-required
include yields an empty object; any other open failure (including a
missing file on a required include) is a `could not parse resource`
error; an included file whose root value is an array is an
`invalidValue` error; otherwise the result of `extractObject` on the
included file. -/
def parseIncludedResource (required : Bool) (r : OpenResult) : Except HErr Entries :=
  match r with
  | .errNotExist => if !required then .ok [] else .error .couldNotParseResource
  | .errOther => .error .couldNotParseResource
  | .opened true _ =>
      .error (.invalidValue "included file cannot contain an array as the root value")
  | .opened false parsed => parsed

/-- The character loop of `extractMultiLineString` (`parser.go`):
`acc` is the builder's contents so far, `count` the number of adjacent
double quotes just consumed.  Each character is appended to the builder;
the loop breaks when at least three adjacent quotes have been read and
the peeked next character is not another quote, returning the builder
minus its last three characters; reaching end of input with fewer than
three adjacent quotes is an `unclosedMultiLineString` error. -/
def extractMultiLineLoop : List Char → Nat → List Char → Except HErr (List Char)
  | [], count, acc =>
      if count ≥ 3 then .ok (acc.take (acc.length - 3))
      else .error .unclosedMultiLineString
  | c :: rest, count, acc =>
      let acc' := acc ++ [c]
      let count' := if c = '"' then count + 1 else 0
      if count' ≥ 3 ∧ rest.head? ≠ some '"' then .ok (acc'.take (acc'.length - 3))
      else extractMultiLineLoop rest count' acc'

/-- `extractMultiLineString` (`parser.go`) on the character stream that
follows the opening `"""` (the function is entered with the token `""`
scanned and one `scanner.Next()` consuming the third opening quote). -/
def extractMultiLine (input : List Char) : Except HErr (List Char) :=
  extractMultiLineLoop input 0 []

/-- Declarative closing condition (the spec's words): a run of three
double quotes starts at index `i` and is not followed by another double
quote (end of input counts as "not a quote"). -/
def closesAtB (cs : List Char) (i : Nat) : Bool :=
  decide (cs.get? i = some '"') && decide (cs.get? (i + 1) = some '"') &&
  decide (cs.get? (i + 2) = some '"') && !decide (cs.get? (i + 3) = some '"')

/-- Scan for the least index `≥ k` satisfying `closesAtB`. -/
def leastCloseAux (cs : List Char) (k : Nat) : Option Nat :=
  if cs.length ≤ k then none
  else if closesAtB cs k then some k
  else leastCloseAux cs (k + 1)
termination_by cs.length - k

/-- The least index where the multi-line string's closing condition
holds, if any. -/
def leastCloseIdx (cs : List Char) : Option Nat := leastCloseAux cs 0

/-! ## The resolver (`resolveSubstitutions` / `processSubstitution`)

Go passes `map`/slice references and mutates nodes in place; the model
threads the whole tree (the root's entries) as explicit state and
addresses the node under resolution by its path from the root, which is
faithful as long as the tree has no internal sharing — the parser's
output is a tree.  (Substituting a value can introduce sharing in Go; no
property stated below depends on subsequent mutation through such an
alias.)  Go's map iteration order is unspecified; the model iterates
object entries by index in association-list order, re-reading the entry
list from the current state at each step (so entries appended to the
root mid-pass are visited, and replaced values are seen — Go's map
`range` reads values at visit time and may or may not visit added
keys).  Go's recursion is bounded by the (mutating) tree; the model uses
explicit fuel, with `HErr.outOfFuel` for exhaustion — every concrete run
below uses ample fuel. -/

/-- One step of a path from the root: an object key or a sequence
index (array or concatenation element). -/
inductive PathElem where
  | key (k : String)
  | idx (i : Nat)
  deriving DecidableEq

/-- Read the node at a path. -/
def getNode : Value → List PathElem → Option Value
  | v, [] => some v
  | .object es, .key k :: π =>
      match lookupKey es k with
      | some v => getNode v π
      | none => none
  | .array xs, .idx i :: π =>
      match xs.get? i with
      | some v => getNode v π
      | none => none
  | .concat xs, .idx i :: π =>
      match xs.get? i with
      | some v => getNode v π
      | none => none
  | _, _ => none

/-- Replace the node at a path (identity when the path does not
exist). -/
def setNode : Value → List PathElem → Value → Value
  | _, [], w => w
  | .object es, .key k :: π, w =>
      match lookupKey es k with
      | some child => .object (setKey es k (setNode child π w))
      | none => .object es
  | .array xs, .idx i :: π, w =>
      match xs.get? i with
      | some child => .array (xs.set i (setNode child π w))
      | none => .array xs
  | .concat xs, .idx i :: π, w =>
      match xs.get? i with
      | some child => .concat (xs.set i (setNode child π w))
      | none => .concat xs
  | v, _, _ => v

/-- Replace the node at a path inside the root's entry list. -/
def setNodeState (st : Entries) (π : List PathElem) (w : Value) : Entries :=
  match setNode (Value.object st) π w with
  | .object es => es
  | _ => st

/-- `concatenation.containsObject()` from `config.go`: scans the
elements calling `value.Type()`, which panics on a `nil` interface
element. -/
def containsObjectGo : List Value → GoResult Bool
  | [] => .returns false
  | v :: rest =>
      match v.typeTag with
      | .panics => .panics
      | .returns t => if t = .objectType then .returns true else containsObjectGo rest

/-- The element-merging loop of the `Object` case of
`resolveSubstitutions` (`parser.go` lines 159–167): every element must
be an `Object` (the checked assertion `value.(Object)` fails without
panicking, yielding `invalidConcatenationError`), and the elements are
merged left-to-right into a fresh object with nil-aware `mergeObjects`
— which panics (`Type()` on a nil interface) when a stored Go nil
meets a previously merged value at a shared key. -/
def reduceConcat : Entries → List Value → Except HErr Entries
  | merged, [] => .ok merged
  | merged, v :: rest =>
      match v with
      | .object o =>
          match mergeObjectsGo merged o with
          | .panics => .error .goPanic
          | .returns m' => reduceConcat m' rest
      | _ => .error .invalidConcatenation

/-- The concatenation-reduction step of the `Object` case of
`resolveSubstitutions` (`parser.go` lines 157–170), for an entry whose
(already substitution-processed) value is the concatenation `xs` under
key `k`: when `containsObject()` holds, reduce and then perform
`root[key] = merged` — the merged object is stored into the TOP-LEVEL
root entries `st`, not into the object containing the entry. -/
def reduceEntryConcat (st : Entries) (k : String) (xs : List Value) : Except HErr Entries :=
  match containsObjectGo xs with
  | .panics => .error .goPanic
  | .returns false => .ok st
  | .returns true =>
      match reduceConcat [] xs with
      | .error e => .error e
      | .ok merged => .ok (setKey st k (.object merged))

mutual

/-- `resolveSubstitutions(root, value)` from `parser.go`, for the node
at path `π`: dispatch on the node's dynamic type — `Array` and
`concatenation` iterate their elements, `Object` iterates its entries,
anything else is the `invalidValue` error of the `default` case. -/
def resolveValueAt (env : String → Option String) :
    Nat → Entries → List PathElem → Except HErr Entries
  | 0, _, _ => .error .outOfFuel
  | fuel + 1, st, π =>
      match getNode (Value.object st) π with
      | some (.array xs) => resolveSeqAt env fuel st π 0 xs.length
      | some (.concat xs) => resolveSeqAt env fuel st π 0 xs.length
      | some (.object _) => resolveObjAt env fuel st π 0
      | some _ =>
          .error (.invalidValue "substitutions are only allowed in field values and array elements")
      | none => .ok st

/-- The `Array`/`concatenation` element loop of `resolveSubstitutions`:
`total` is the element count when the loop started (Go's `range`
evaluates the slice once); each element is read from the current state
and processed in place. -/
def resolveSeqAt (env : String → Option String) :
    Nat → Entries → List PathElem → Nat → Nat → Except HErr Entries
  | 0, _, _, _, _ => .error .outOfFuel
  | fuel + 1, st, π, i, total =>
      if i < total then
        match getNode (Value.object st) (π ++ [.idx i]) with
        | some v =>
            match processSubstAt env fuel st (π ++ [.idx i]) v with
            | .error e => .error e
            | .ok st1 => resolveSeqAt env fuel st1 π (i + 1) total
        | none => resolveSeqAt env fuel st π (i + 1) total
      else .ok st

/-- The `Object` entry loop of `resolveSubstitutions`: process the
substitutions of entry `i`, then, if the entry's original value was a
`concatenation`, run the concatenation-reduction step on its (now
substitution-processed) elements. -/
def resolveObjAt (env : String → Option String) :
    Nat → Entries → List PathElem → Nat → Except HErr Entries
  | 0, _, _, _ => .error .outOfFuel
  | fuel + 1, st, π, i =>
      match getNode (Value.object st) π with
      | some (.object es) =>
          if h : i < es.length then
            match es.get ⟨i, h⟩ with
            | (k, v) =>
              match processSubstAt env fuel st (π ++ [.key k]) v with
              | .error e => .error e
              | .ok st1 =>
                  match v with
                  | .concat _ =>
                      match getNode (Value.object st1) (π ++ [.key k]) with
                      | some (.concat xs) =>
                          match reduceEntryConcat st1 k xs with
                          | .error e => .error e
                          | .ok st2 => resolveObjAt env fuel st2 π (i + 1)
                      | _ => resolveObjAt env fuel st1 π (i + 1)
                  | _ => resolveObjAt env fuel st1 π (i + 1)
          else .ok st
      | _ => .ok st

/-- `processSubstitution(root, value, resolveFunc)` from `parser.go`,
where `resolveFunc` writes to the slot at path `π`: a `Substitution` is
resolved through `processSubstitutionType` (an unresolved optional one
writes Go `nil` into the slot); a `valueWithAlternative` keeps its
primary value unless the alternative resolves; `Object`, `Array` and
`concatenation` recurse; every other type is left untouched. -/
def processSubstAt (env : String → Option String) :
    Nat → Entries → List PathElem → Value → Except HErr Entries
  | 0, _, _, _ => .error .outOfFuel
  | fuel + 1, st, π, v =>
      match v with
      | .substitution p o =>
          match processSubstitutionType env st p o with
          | .panics => .error .goPanic
          | .failed msg => .error (.substitutionFailure msg)
          | .resolved val => .ok (setNodeState st π val)
          | .unresolvedOptional => .ok (setNodeState st π .goNil)
      | .valueWithAlternative w p o =>
          match processSubstitutionType env st p o with
          | .panics => .error .goPanic
          | .failed msg => .error (.substitutionFailure msg)
          | .resolved val => .ok (setNodeState st π val)
          | .unresolvedOptional => .ok (setNodeState st π w)
      | .object _ => resolveValueAt env fuel st π
      | .array _ => resolveValueAt env fuel st π
      | .concat _ => resolveValueAt env fuel st π
      | _ => .ok st

end

theorem lookup_setKey_self {α : Type} (es : List (String × α)) (k : String) (v : α) :
    lookupKey (setKey es k v) k = some v := by
  induction es with
  | nil => simp [setKey, lookupKey]
  | cons kv rest ih =>
      obtain ⟨k₁, v₁⟩ := kv
      by_cases h : k₁ = k
      · subst h; simp [setKey, lookupKey]
      · simp [setKey, lookupKey, h, ih]

theorem lookup_setKey_ne {α : Type} (es : List (String × α)) (k : String) (v : α)
    (k' : String) (h : k' ≠ k) :
    lookupKey (setKey es k v) k' = lookupKey es k' := by
  induction es with
  | nil => simp [setKey, lookupKey, Ne.symm h]
  | cons kv rest ih =>
      obtain ⟨k₁, v₁⟩ := kv
      by_cases h₁ : k₁ = k
      · subst h₁
        simp only [setKey, if_pos rfl, lookupKey]
        rw [if_neg (fun hh => h hh.symm), if_neg (fun hh => h hh.symm)]
      · simp [setKey, lookupKey, h₁, ih]

theorem lookup_eq_none_of_not_mem {α : Type} (es : List (String × α)) (k : String)
    (h : k ∉ keysOf es) : lookupKey es k = none := by
  induction es with
  | nil => simp [lookupKey]
  | cons kv rest ih =>
      obtain ⟨k₁, v₁⟩ := kv
      simp only [keysOf, List.map_cons, List.mem_cons] at h
      push_neg at h
      simp [lookupKey, Ne.symm h.1, ih (by simpa [keysOf] using h.2)]

theorem setKey_of_lookup_none {α : Type} (es : List (String × α)) (k : String) (v : α)
    (h : lookupKey es k = none) : setKey es k v = es ++ [(k, v)] := by
  induction es with
  | nil => simp [setKey]
  | cons kv rest ih =>
      obtain ⟨k₁, v₁⟩ := kv
      simp only [lookupKey] at h
      by_cases h₁ : k₁ = k
      · simp [h₁] at h
      · simp [setKey, h₁, ih (by simpa [h₁] using h)]

theorem lookup_append_left {α : Type} (es fs : List (String × α)) (k : String)
    (v : α) (h : lookupKey es k = some v) : lookupKey (es ++ fs) k = some v := by
  induction es with
  | nil => simp [lookupKey] at h
  | cons kv rest ih =>
      obtain ⟨k₁, v₁⟩ := kv
      simp only [lookupKey] at h ⊢
      by_cases h₁ : k₁ = k
      · simpa [h₁] using h
      · simp only [if_neg h₁] at h ⊢
        exact ih h

theorem lookup_append_right {α : Type} (es fs : List (String × α)) (k : String)
    (h : lookupKey es k = none) : lookupKey (es ++ fs) k = lookupKey fs k := by
  induction es with
  | nil => simp
  | cons kv rest ih =>
      obtain ⟨k₁, v₁⟩ := kv
      simp only [lookupKey] at h ⊢
      by_cases h₁ : k₁ = k
      · simp [h₁] at h
      · simp only [List.cons_append, lookupKey, if_neg h₁] at h ⊢
        exact ih h

/-! ## `Object.find` lemmas -/

/-- The descent loop distributes over list append, with `panics` and the
early `nil` return absorbing. -/
theorem findLoop_append (o : Entries) (l₁ l₂ : List String) :
    findLoop o (l₁ ++ l₂) =
      match findLoop o l₁ with
      | .returns (some o') => findLoop o' l₂
      | .returns none => .returns none
      | .panics => .panics := by
  induction l₁ generalizing o with
  | nil => simp [findLoop]
  | cons k rest ih =>
      simp only [List.cons_append, findLoop]
      match hv : lookupKey o k with
      | none => simp
      | some (Value.object o₂) => simpa using ih o₂
      | some (Value.array _) => simp
      | some (Value.str _) => simp
      | some (Value.int _) => simp
      | some (Value.float _) => simp
      | some (Value.bool _) => simp
      | some Value.null => simp
      | some (Value.duration _) => simp
      | some (Value.substitution _ _) => simp
      | some (Value.concat _) => simp
      | some (Value.valueWithAlternative _ _ _) => simp
      | some Value.goNil => simp

/-! ## Claim C3 — `Object.find` on absent / non-`Object` intermediates -/

/-- C3 counterexample: the claim states that `find` returns null when an
intermediate segment holds a non-`Object` value; in fact the unchecked
type assertion `value.(Object)` panics.  Concretely, on the object
`{a: 1}` and path `"a.b"`, `find` panics instead of returning null. -/
theorem find_nonObject_intermediate_cex :
    Object.find [("a", Value.int 1)] "a.b" = GoResult.panics ∧
    Object.find [("a", Value.int 1)] "a.b" ≠ GoResult.returns none := by
  decide

/-- C3 (amended): for every object `o` and dotted path `p`,
`Object.find(o, p)` returns null whenever a leading (intermediate)
segment of `p` is absent from the object reached at that point of the
descent; but when an intermediate segment is present and holds a
non-`Object` value, `find` panics (failed Go interface type assertion)
rather than returning null.  The descent position is given by a
decomposition of the path's segments `lead ++ k :: rest ++ [lastSeg]`
together with the object `o'` the loop has reached after `lead`. -/
theorem find_descends (o o' : Entries) (p : String) (lead rest : List String)
    (k lastSeg : String)
    (hsplit : splitOnDot p = (lead ++ k :: rest) ++ [lastSeg])
    (hdesc : findLoop o lead = GoResult.returns (some o')) :
    (lookupKey o' k = none → Object.find o p = GoResult.returns none) ∧
    (∀ v, lookupKey o' k = some v → (∀ es, v ≠ Value.object es) →
      Object.find o p = GoResult.panics) := by
  have hdrop : (splitOnDot p).dropLast = lead ++ k :: rest := by
    rw [hsplit]; exact List.dropLast_concat ..
  constructor
  · intro hnone
    have h2 : findLoop o' (k :: rest) = GoResult.returns none := by
      simp [findLoop, hnone]
    have h3 : findLoop o (lead ++ k :: rest) = GoResult.returns none := by
      rw [findLoop_append, hdesc]
      exact h2
    simp [Object.find, hdrop, h3]
  · intro v hv hne
    have h2 : findLoop o' (k :: rest) = GoResult.panics := by
      cases v with
      | object es => exact absurd rfl (hne es)
      | array _ => simp [findLoop, hv]
      | str _ => simp [findLoop, hv]
      | int _ => simp [findLoop, hv]
      | float _ => simp [findLoop, hv]
      | bool _ => simp [findLoop, hv]
      | null => simp [findLoop, hv]
      | duration _ => simp [findLoop, hv]
      | substitution _ _ => simp [findLoop, hv]
      | concat _ => simp [findLoop, hv]
      | valueWithAlternative _ _ _ => simp [findLoop, hv]
      | goNil => simp [findLoop, hv]
    have h3 : findLoop o (lead ++ k :: rest) = GoResult.panics := by
      rw [findLoop_append, hdesc]
      exact h2
    simp [Object.find, hdrop, h3]

/-- C3 witness: the amended theorem applied to `{a: 1}` and path
`"a.b"` — the present-but-non-`Object` intermediate `a` makes `find`
panic. -/
theorem find_descends_witness :
    splitOnDot "a.b" = ([] ++ "a" :: []) ++ ["b"] ∧
    Object.find [("a", Value.int 1)] "a.b" = GoResult.panics := by
  refine ⟨by decide, ?_⟩
  exact (find_descends [("a", Value.int 1)] [("a", Value.int 1)] "a.b" [] [] "a" "b"
    (by decide) rfl).2 (Value.int 1) (by decide) (fun es h => by cases h)

/-! ## Claim C1 — substitution resolution order -/

/-- C1 counterexample: the claim's fallback chain says that when
`Object.find` does not find a value but the environment defines the
path, the environment value is substituted as a `String`.  But on root
`{a: 1}` and path `"a.b"` (with `"a.b"` defined in the environment),
`root.find` panics inside the type assertion, so no environment lookup
ever happens. -/
theorem processSubstitutionType_env_cex :
    processSubstitutionType (fun s => if s = "a.b" then some "42" else none)
      [("a", Value.int 1)] "a.b" false = SubstResult.panics ∧
    processSubstitutionType (fun s => if s = "a.b" then some "42" else none)
      [("a", Value.int 1)] "a.b" false ≠ SubstResult.resolved (Value.str "42") := by
  decide

/-- C1 (amended): for every substitution reached by the resolver,
PROVIDED `Object.find` returns (rather than panicking on a non-`Object`
intermediate): if `find` finds a non-nil value, that value is
substituted (a stored Go nil — written by the resolver for an
unresolved optional substitution — is the nil interface, which the
`foundValue != nil` test treats as not found); otherwise if the
environment defines the path, its value is substituted as a `String`;
otherwise an optional substitution is left unresolved without error,
and a non-optional one fails with
`could not resolve substitution: ${path} to a value`
(`substitutionString path false` is exactly `${path}`). -/
theorem processSubstitutionType_spec (env : String → Option String) (root : Entries)
    (path : String) (optional : Bool) (r : Option Value)
    (hfind : Object.find root path = GoResult.returns r) :
    (∀ v, r = some v → v ≠ Value.goNil →
      processSubstitutionType env root path optional = SubstResult.resolved v) ∧
    (r = none ∨ r = some Value.goNil → ∀ s, env path = some s →
      processSubstitutionType env root path optional = SubstResult.resolved (Value.str s)) ∧
    (r = none ∨ r = some Value.goNil → env path = none → optional = true →
      processSubstitutionType env root path optional = SubstResult.unresolvedOptional) ∧
    (r = none ∨ r = some Value.goNil → env path = none → optional = false →
      processSubstitutionType env root path optional =
        SubstResult.failed ("could not resolve substitution: " ++
          substitutionString path false ++ " to a value")) := by
  refine ⟨?_, ?_, ?_, ?_⟩
  · rintro v rfl hnn
    unfold processSubstitutionType
    rw [hfind]
    simp [hnn]
  · rintro (rfl | rfl) s hs <;>
      · unfold processSubstitutionType
        rw [hfind]
        simp [substNotFound, hs]
  · rintro (rfl | rfl) he rfl <;>
      · unfold processSubstitutionType
        rw [hfind]
        simp [substNotFound, he]
  · rintro (rfl | rfl) he rfl <;>
      · unfold processSubstitutionType
        rw [hfind]
        simp [substNotFound, he]

/-- C1 witness: the root `{a: nil}` (a stored Go nil, as the resolver
leaves for `a: ${?x}` with `x` undefined) with path `"a"`: `find`
returns the stored nil, which counts as not found, so the environment
value `"42"` is substituted as a `String`. -/
theorem processSubstitutionType_spec_witness :
    Object.find [("a", Value.goNil)] "a" = GoResult.returns (some Value.goNil) ∧
    processSubstitutionType (fun s => if s = "a" then some "42" else none)
      [("a", Value.goNil)] "a" false = SubstResult.resolved (Value.str "42") := by
  refine ⟨by decide, ?_⟩
  exact (processSubstitutionType_spec (fun s => if s = "a" then some "42" else none)
    [("a", Value.goNil)] "a" false (some Value.goNil)
    (by decide)).2.1 (Or.inr rfl) "42" (by decide)

/-! ## Claim C2 — duplicate-key insertion in `extractObject` -/

/-- C2: when the parser inserts a value under a key that already has a
value in the same object (`extractObject`, `case equalsToken,
colonToken`): (1) two `Object`s deep-merge; (2) the pairs
(Substitution, Substitution), (Object, Substitution) and (Substitution,
Object) produce a `Concatenation` of the two in order; (3) an existing
value that is neither `Object` nor `Substitution` together with a new
`Substitution` produces a `valueWithAlternative` wrapping the existing
value with the substitution as alternative; (4) in every other case the
new value replaces the old. -/
theorem insertValue_duplicate_key (object : Entries) (key : String) (ex v : Value)
    (hex : lookupKey object key = some ex) :
    (∀ eo no, ex = Value.object eo → v = Value.object no →
      lookupKey (insertValue object key v) key =
        some (Value.object (mergeObjects eo no))) ∧
    ((((∃ p o, ex = Value.substitution p o) ∧ (∃ p o, v = Value.substitution p o)) ∨
      ((∃ es, ex = Value.object es) ∧ (∃ p o, v = Value.substitution p o)) ∨
      ((∃ p o, ex = Value.substitution p o) ∧ (∃ es, v = Value.object es))) →
      lookupKey (insertValue object key v) key = some (Value.concat [ex, v])) ∧
    (∀ p o, (∀ es, ex ≠ Value.object es) → (∀ q r, ex ≠ Value.substitution q r) →
      v = Value.substitution p o →
      lookupKey (insertValue object key v) key =
        some (Value.valueWithAlternative ex p o)) ∧
    ((∀ eo no, ¬(ex = Value.object eo ∧ v = Value.object no)) →
     (∀ p o, v ≠ Value.substitution p o) →
     (∀ p o es, ¬(ex = Value.substitution p o ∧ v = Value.object es)) →
      lookupKey (insertValue object key v) key = some v) := by
  refine ⟨?_, ?_, ?_, ?_⟩
  · rintro eo no rfl rfl
    simp [insertValue, hex, lookup_setKey_self]
  · rintro (⟨⟨p₁, o₁, rfl⟩, ⟨p₂, o₂, rfl⟩⟩ | ⟨⟨es, rfl⟩, ⟨p₂, o₂, rfl⟩⟩ |
      ⟨⟨p₁, o₁, rfl⟩, ⟨es, rfl⟩⟩) <;>
      simp [insertValue, hex, lookup_setKey_self]
  · rintro p o h₁ h₂ rfl
    cases ex with
    | object es => exact absurd rfl (h₁ es)
    | substitution q r => exact absurd rfl (h₂ q r)
    | array _ => simp [insertValue, hex, lookup_setKey_self]
    | str _ => simp [insertValue, hex, lookup_setKey_self]
    | int _ => simp [insertValue, hex, lookup_setKey_self]
    | float _ => simp [insertValue, hex, lookup_setKey_self]
    | bool _ => simp [insertValue, hex, lookup_setKey_self]
    | null => simp [insertValue, hex, lookup_setKey_self]
    | duration _ => simp [insertValue, hex, lookup_setKey_self]
    | concat _ => simp [insertValue, hex, lookup_setKey_self]
    | valueWithAlternative _ _ _ => simp [insertValue, hex, lookup_setKey_self]
    | goNil => simp [insertValue, hex, lookup_setKey_self]
  · intro h₁ h₂ h₃
    cases v <;> cases ex <;>
      first
      | exact absurd rfl (h₂ _ _)
      | exact absurd ⟨rfl, rfl⟩ (h₁ _ _)
      | exact absurd ⟨rfl, rfl⟩ (h₃ _ _ _)
      | simp [insertValue, hex, lookup_setKey_self]

/-- C2 witness: inserting the substitution `${x}` under a key holding
`Int(1)` wraps the existing value in a `valueWithAlternative`. -/
theorem insertValue_duplicate_key_witness :
    lookupKey [("a", Value.int 1)] "a" = some (Value.int 1) ∧
    lookupKey (insertValue [("a", Value.int 1)] "a" (Value.substitution "x" false)) "a" =
      some (Value.valueWithAlternative (Value.int 1) "x" false) := by
  refine ⟨by decide, ?_⟩
  exact (insertValue_duplicate_key [("a", Value.int 1)] "a" (Value.int 1)
    (Value.substitution "x" false) (by decide)).2.2.1 "x" false
    (fun es h => by cases h) (fun q r h => by cases h) rfl

/-! ## Merge lemmas -/

/-- Keys absent from `new` keep their `existing` binding under merge. -/
theorem lookup_merge_not_mem (new : Entries) (ex : Entries) (k : String)
    (h : k ∉ keysOf new) :
    lookupKey (mergeObjects ex new) k = lookupKey ex k := by
  induction new generalizing ex with
  | nil => simp [mergeObjects]
  | cons kv rest ih =>
      obtain ⟨k₁, v₁⟩ := kv
      simp only [keysOf, List.map_cons, List.mem_cons] at h
      push_neg at h
      rw [mergeObjects]
      rw [ih _ (by simpa [keysOf] using h.2)]
      exact lookup_setKey_ne _ _ _ _ h.1

/-- Merge keeps a non-`Object` binding of `new` untouched ("self
wins"). -/
theorem lookup_merge_self_wins (new : Entries) (ex : Entries) (k : String) (v : Value)
    (hnodup : (keysOf new).Nodup) (hv : lookupKey new k = some v)
    (hno : ∀ no, v ≠ Value.object no) :
    lookupKey (mergeObjects ex new) k = some v := by
  induction new generalizing ex with
  | nil => simp [lookupKey] at hv
  | cons kv rest ih =>
      obtain ⟨k₁, v₁⟩ := kv
      simp only [keysOf, List.map_cons, List.nodup_cons] at hnodup
      rw [mergeObjects]
      by_cases hk : k₁ = k
      · subst hk
        simp only [lookupKey, if_true, eq_self_iff_true, Option.some.injEq] at hv
        subst hv
        rw [lookup_merge_not_mem _ _ _ (by simpa [keysOf] using hnodup.1)]
        rw [lookup_setKey_self]
        congr 1
        cases hev : lookupKey ex k₁ with
        | none => cases v₁ <;> simp [mergeValueInto]
        | some ev =>
            cases ev <;> cases v₁ <;>
              first
              | exact absurd rfl (hno _)
              | simp [mergeValueInto]
      · simp only [lookupKey, if_neg hk] at hv
        exact ih _ hnodup.2 hv

/-- Merging entries whose keys are all fresh appends them. -/
theorem mergeObjects_fresh (new : Entries) (ex : Entries)
    (hfresh : ∀ k ∈ keysOf new, lookupKey ex k = none)
    (hnodup : (keysOf new).Nodup) :
    mergeObjects ex new = ex ++ new := by
  induction new generalizing ex with
  | nil => simp [mergeObjects]
  | cons kv rest ih =>
      obtain ⟨k₁, v₁⟩ := kv
      simp only [keysOf, List.map_cons, List.nodup_cons] at hnodup
      have hk₁ : lookupKey ex k₁ = none := hfresh k₁ (by simp [keysOf])
      rw [mergeObjects]
      have hnv : mergeValueInto (lookupKey ex k₁) v₁ = v₁ := by
        rw [hk₁]; cases v₁ <;> simp [mergeValueInto]
      rw [hnv, setKey_of_lookup_none _ _ _ hk₁]
      rw [ih (ex ++ [(k₁, v₁)]) ?_ hnodup.2]
      · simp
      · intro k' hk'
        have hne : k' ≠ k₁ := by
          intro hh
          exact hnodup.1 (by simpa [keysOf, hh] using hk')
        rw [lookup_append_right _ _ _ (hfresh k' (List.mem_cons_of_mem _ hk'))]
        simp [lookupKey, Ne.symm hne]

/-- When the nil-aware merge returns at all, keys absent from `new`
keep their `existing` binding. -/
theorem lookup_mergeGo_not_mem (new : Entries) : ∀ (ex m : Entries) (k : String),
    k ∉ keysOf new → mergeObjectsGo ex new = GoResult.returns m →
    lookupKey m k = lookupKey ex k := by
  induction new with
  | nil =>
      intro ex m k _ hrun
      have h : ex = m := by simpa [mergeObjectsGo] using hrun
      rw [h]
  | cons kv rest ih =>
      obtain ⟨k₁, v₁⟩ := kv
      intro ex m k hk hrun
      simp only [keysOf, List.map_cons, List.mem_cons] at hk
      push_neg at hk
      simp only [mergeObjectsGo] at hrun
      cases hmv : mergeValueIntoGo (lookupKey ex k₁) v₁ with
      | panics => simp [hmv] at hrun
      | returns v' =>
          simp only [hmv] at hrun
          rw [ih _ m k (by simpa [keysOf] using hk.2) hrun]
          exact lookup_setKey_ne _ _ _ _ hk.1

/-- When the nil-aware merge returns, a non-`Object` binding of `new`
survives untouched ("self wins"). -/
theorem lookup_mergeGo_self_wins (new : Entries) :
    ∀ (ex m : Entries) (k : String) (v : Value),
    (keysOf new).Nodup → lookupKey new k = some v →
    (∀ no, v ≠ Value.object no) →
    mergeObjectsGo ex new = GoResult.returns m →
    lookupKey m k = some v := by
  induction new with
  | nil =>
      intro ex m k v _ hv
      simp [lookupKey] at hv
  | cons kv rest ih =>
      obtain ⟨k₁, v₁⟩ := kv
      intro ex m k v hnodup hv hno hrun
      simp only [keysOf, List.map_cons, List.nodup_cons] at hnodup
      simp only [mergeObjectsGo] at hrun
      cases hmv : mergeValueIntoGo (lookupKey ex k₁) v₁ with
      | panics => simp [hmv] at hrun
      | returns v' =>
          simp only [hmv] at hrun
          by_cases hk : k₁ = k
          · subst hk
            simp only [lookupKey, if_true, eq_self_iff_true, Option.some.injEq] at hv
            subst hv
            rw [lookup_mergeGo_not_mem rest _ m k₁
              (by simpa [keysOf] using hnodup.1) hrun]
            rw [lookup_setKey_self]
            congr 1
            cases hev : lookupKey ex k₁ with
            | none =>
                rw [hev] at hmv
                have : v₁ = v' := by simpa [mergeValueIntoGo] using hmv
                exact this.symm
            | some ev =>
                rw [hev] at hmv
                cases ev <;> cases v₁ <;>
                  first
                  | exact absurd rfl (hno _)
                  | (simp [mergeValueIntoGo] at hmv
                     done)
                  | (simp [mergeValueIntoGo] at hmv
                     exact hmv.symm)
          · simp only [lookupKey, if_neg hk] at hv
            exact ih _ m k v hnodup.2 hv hno hrun

/-- Merging entries whose keys are all fresh never calls `Type()` — in
particular it cannot panic even on stored nils — and appends them. -/
theorem mergeObjectsGo_fresh (new : Entries) : ∀ ex : Entries,
    (∀ k ∈ keysOf new, lookupKey ex k = none) → (keysOf new).Nodup →
    mergeObjectsGo ex new = GoResult.returns (ex ++ new) := by
  induction new with
  | nil =>
      intro ex _ _
      simp [mergeObjectsGo]
  | cons kv rest ih =>
      obtain ⟨k₁, v₁⟩ := kv
      intro ex hfresh hnodup
      simp only [keysOf, List.map_cons, List.nodup_cons] at hnodup
      have hk₁ : lookupKey ex k₁ = none := hfresh k₁ (by simp [keysOf])
      have hmv : mergeValueIntoGo (lookupKey ex k₁) v₁ = GoResult.returns v₁ := by
        rw [hk₁]
        simp [mergeValueIntoGo]
      simp only [mergeObjectsGo, hmv]
      rw [setKey_of_lookup_none _ _ _ hk₁]
      rw [ih (ex ++ [(k₁, v₁)]) ?_ hnodup.2]
      · simp
      · intro k' hk'
        have hne : k' ≠ k₁ := by
          intro hh
          exact hnodup.1 (by simpa [keysOf, hh] using hk')
        rw [lookup_append_right _ _ _ (hfresh k' (List.mem_cons_of_mem _ hk'))]
        simp [lookupKey, Ne.symm hne]

/-! ## Claim C8 — `WithFallback` -/

/-- C8 counterexample: the claim says that whenever both roots are
`Object`s the result equals the deep-merge of a copy of the fallback's
root with the current root.  But with current root `{a: nil}` (the
resolver stores a Go nil for the unresolved optional substitution in
`a: ${?x}`) and fallback root `{a: {y: 1}}`, the merge loop reaches
`value.Type()` on the nil interface and panics — `WithFallback` returns
no merged Config at all. -/
theorem withFallback_nil_panic_cex :
    withFallback (Value.object [("a", Value.goNil)])
      (Value.object [("a", Value.object [("y", Value.int 1)])]) =
      GoResult.panics ∧
    ∀ m, withFallback (Value.object [("a", Value.goNil)])
      (Value.object [("a", Value.object [("y", Value.int 1)])]) ≠
        GoResult.returns (Value.object m) := by
  have h : withFallback (Value.object [("a", Value.goNil)])
      (Value.object [("a", Value.object [("y", Value.int 1)])]) =
      GoResult.panics := by
    simp [withFallback, copyObject, mergeObjectsGo, mergeValueIntoGo, lookupKey]
  refine ⟨h, ?_⟩
  intro m hm
  rw [h] at hm
  cases hm

/-- C8 (amended): `WithFallback`.  (1) For every Config whose root is
an `Object` (with Go-map-unique keys), falling back on the empty object
returns a structurally equal Config — merging into an empty copy never
calls `Type()`, so this holds even when the root stores Go nils.
(2) When both roots are `Object`s and the merge completes, the result's
root is the nil-aware deep-merge of a recursive copy of the fallback's
root with the current root (2') — but the merge panics instead of
returning whenever a stored Go nil meets the conditions of
`mergeValueIntoGo`, so no merged Config exists then.  (3) In a
completed merge the current root's values win on common keys (shown for
non-`Object` values; `Object` values merge recursively with the current
side winning, by the same merge).  (4, 5) When either root is not an
`Object`, the result is the current config unchanged. -/
theorem withFallback_spec :
    (∀ es : Entries, (keysOf es).Nodup →
      withFallback (Value.object es) (Value.object []) =
        GoResult.returns (Value.object es)) ∧
    (∀ cur fb m : Entries, mergeObjectsGo (copyObject fb) cur = GoResult.returns m →
      withFallback (Value.object cur) (Value.object fb) =
        GoResult.returns (Value.object m)) ∧
    (∀ cur fb : Entries, mergeObjectsGo (copyObject fb) cur = GoResult.panics →
      withFallback (Value.object cur) (Value.object fb) = GoResult.panics) ∧
    (∀ cur fb m : Entries, (keysOf cur).Nodup →
      mergeObjectsGo (copyObject fb) cur = GoResult.returns m →
      ∀ k v, lookupKey cur k = some v → (∀ no, v ≠ Value.object no) →
      lookupKey m k = some v) ∧
    (∀ c fallback : Value, (∀ es, c ≠ Value.object es) →
      withFallback c fallback = GoResult.returns c) ∧
    (∀ c fallback : Value, (∀ es, fallback ≠ Value.object es) →
      withFallback c fallback = GoResult.returns c) := by
  refine ⟨?_, ?_, ?_, ?_, ?_, ?_⟩
  · intro es hnodup
    have hm : mergeObjectsGo (copyObject []) es = GoResult.returns es := by
      rw [show copyObject [] = ([] : Entries) by rw [copyObject]]
      rw [mergeObjectsGo_fresh es [] (by intro k _; rfl) hnodup]
      rfl
    simp [withFallback, hm]
  · intro cur fb m hm
    simp [withFallback, hm]
  · intro cur fb hm
    simp [withFallback, hm]
  · intro cur fb m hnodup hm k v hv hno
    exact lookup_mergeGo_self_wins cur (copyObject fb) m k v hnodup hv hno hm
  · intro c fallback h
    cases c with
    | object es => exact absurd rfl (h es)
    | array _ => rfl
    | str _ => rfl
    | int _ => rfl
    | float _ => rfl
    | bool _ => rfl
    | null => rfl
    | duration _ => rfl
    | substitution _ _ => rfl
    | concat _ => rfl
    | valueWithAlternative _ _ _ => rfl
    | goNil => rfl
  · intro c fallback h
    cases c with
    | object es =>
        cases fallback with
        | object fs => exact absurd rfl (h fs)
        | array _ => rfl
        | str _ => rfl
        | int _ => rfl
        | float _ => rfl
        | bool _ => rfl
        | null => rfl
        | duration _ => rfl
        | substitution _ _ => rfl
        | concat _ => rfl
        | valueWithAlternative _ _ _ => rfl
        | goNil => rfl
    | array _ => rfl
    | str _ => rfl
    | int _ => rfl
    | float _ => rfl
    | bool _ => rfl
    | null => rfl
    | duration _ => rfl
    | substitution _ _ => rfl
    | concat _ => rfl
    | valueWithAlternative _ _ _ => rfl
    | goNil => rfl

/-- C8 witness: `{a: 1}.WithFallback(empty object)` is `{a: 1}`
unchanged. -/
theorem withFallback_spec_witness :
    withFallback (Value.object [("a", Value.int 1)]) (Value.object []) =
      GoResult.returns (Value.object [("a", Value.int 1)]) :=
  withFallback_spec.1 [("a", Value.int 1)] (by decide)

/-! ## Claim C9 — accessors on a non-`Object` root -/

/-- C9: for every Config whose root is not an `Object` (in particular
one parsed from a document whose top-level value is an array — a parsed
root is never the `nil` interface value, which is excluded because
`c.root.Type()` would panic on it), `Config.Get` returns `nil` for
every path, and consequently each typed accessor built on `Get` returns
its not-found zero value for every path. -/
theorem get_non_object_root (root : Value) (path : String)
    (hobj : ∀ es, root ≠ Value.object es) (hnil : root ≠ Value.goNil) :
    configGet root path = GoResult.returns none ∧
    getString root path = GoResult.returns "" ∧
    getInt root path = GoResult.returns 0 ∧
    getObject root path = GoResult.returns none ∧
    getArray root path = GoResult.returns none ∧
    getBoolean root path = GoResult.returns false ∧
    getDuration root path = GoResult.returns 0 := by
  have hget : configGet root path = GoResult.returns none := by
    cases root with
    | object es => exact absurd rfl (hobj es)
    | goNil => exact absurd rfl hnil
    | array _ => rfl
    | str _ => rfl
    | int _ => rfl
    | float _ => rfl
    | bool _ => rfl
    | null => rfl
    | duration _ => rfl
    | substitution _ _ => rfl
    | concat _ => rfl
    | valueWithAlternative _ _ _ => rfl
  exact ⟨hget,
    by simp [getString, hget],
    by simp [getInt, hget],
    by simp [getObject, hget],
    by simp [getArray, hget],
    by simp [getBoolean, hget],
    by simp [getDuration, hget]⟩

/-- C9 witness: a Config whose root is an array (as parsed from an
array document) yields the zero value from every accessor, at path
`"a.b"`. -/
theorem get_non_object_root_witness :
    configGet (Value.array []) "a.b" = GoResult.returns none ∧
    getString (Value.array []) "a.b" = GoResult.returns "" ∧
    getInt (Value.array []) "a.b" = GoResult.returns 0 ∧
    getObject (Value.array []) "a.b" = GoResult.returns none ∧
    getArray (Value.array []) "a.b" = GoResult.returns none ∧
    getBoolean (Value.array []) "a.b" = GoResult.returns false ∧
    getDuration (Value.array []) "a.b" = GoResult.returns 0 :=
  get_non_object_root (Value.array []) "a.b" (fun es h => by cases h) (by decide)

/-! ## Claim C5 — duration-unit suffixes on numeric literals -/

/-- C5 counterexample: the claim says a `Float` literal followed by a
unit word multiplies the floating value by the unit (`1.5 s` would be
`1.5e9 ns`); the code converts the float to `int64` FIRST
(`time.Duration(value) * durationUnit`), truncating `1.5` to `1`, so
`1.5 s` parses to one second, not one and a half. -/
theorem float_duration_truncates_cex :
    extractValueFloatCase (Rat.mk' 3 2) true "s" = Value.duration 1000000000 ∧
    extractValueFloatCase (Rat.mk' 3 2) true "s" ≠ Value.duration 1500000000 := by
  decide

/-- Helper: a unit word of the spec's §6 table is mapped by the code's
switch to the same nonzero nanosecond count. -/
theorem durationUnit_some (w : String) (u : Int) (h : specDurationUnit w = some u) :
    durationUnitNanos w = u ∧ u ≠ 0 := by
  unfold specDurationUnit at h
  unfold durationUnitNanos
  split_ifs at h ⊢ <;> simp_all <;> omega

/-- Helper: a word outside the §6 table gets unit `0` (no unit). -/
theorem durationUnit_none (w : String) (h : specDurationUnit w = none) :
    durationUnitNanos w = 0 := by
  unfold specDurationUnit at h
  unfold durationUnitNanos
  split_ifs at h ⊢
  rfl

/-- C5 (amended): the code's duration-unit switch agrees with the
spec's §6 table (including `day = 24 h`).  An `Int` literal followed on
the same line by a unit word becomes `Duration(value × unit)` (64-bit
wrapping multiplication) and otherwise stays `Int`.  A `Float` literal
followed by a unit word is first converted to `int64` — truncated
toward zero — and only then multiplied by the unit (NOT floating-point
multiplication); without a unit it stays `Float`. -/
theorem duration_extraction_spec :
    (∀ w : String, durationUnitNanos w = (specDurationUnit w).getD 0) ∧
    (∀ (n : Int) (w : String) (u : Int), specDurationUnit w = some u →
      extractValueIntCase n true w = Value.duration (wrap64 (n * u))) ∧
    (∀ (n : Int) (w : String), specDurationUnit w = none →
      extractValueIntCase n true w = Value.int n) ∧
    (∀ (n : Int) (w : String), extractValueIntCase n false w = Value.int n) ∧
    (∀ (q : ℚ) (w : String) (u : Int), specDurationUnit w = some u →
      extractValueFloatCase q true w = Value.duration (wrap64 (goTruncRat q * u))) ∧
    (∀ (q : ℚ) (w : String), specDurationUnit w = none →
      extractValueFloatCase q true w = Value.float q) ∧
    (∀ (q : ℚ) (w : String), extractValueFloatCase q false w = Value.float q) := by
  refine ⟨?_, ?_, ?_, ?_, ?_, ?_, ?_⟩
  · intro w
    unfold durationUnitNanos specDurationUnit
    split_ifs <;> rfl
  · intro n w u h
    obtain ⟨h1, h2⟩ := durationUnit_some w u h
    simp [extractValueIntCase, extractDurationUnit, h1, h2]
  · intro n w h
    simp [extractValueIntCase, extractDurationUnit, durationUnit_none w h]
  · intro n w
    simp [extractValueIntCase, extractDurationUnit]
  · intro q w u h
    obtain ⟨h1, h2⟩ := durationUnit_some w u h
    simp [extractValueFloatCase, extractDurationUnit, h1, h2]
  · intro q w h
    simp [extractValueFloatCase, extractDurationUnit, durationUnit_none w h]
  · intro q w
    simp [extractValueFloatCase, extractDurationUnit]

/-- C5 witness: `2 days` parses to `Duration(2 × 24h)` =
172800000000000 ns. -/
theorem duration_extraction_spec_witness :
    specDurationUnit "days" = some (24 * 3600000000000) ∧
    extractValueIntCase 2 true "days" =
      Value.duration (wrap64 (2 * (24 * 3600000000000))) := by
  refine ⟨by decide, ?_⟩
  exact duration_extraction_spec.2.1 2 "days" (24 * 3600000000000) (by decide)

/-! ## Claim C6 — include directives -/

/-- C6: for every include directive, a missing file on a non-required
include continues the parse with an empty object (merging an empty
object is a no-op on the containing object); a missing file on a
`required(...)` include is a hard `could not parse resource` error;
and an included file whose root value is an array is an error
regardless of `required`. -/
theorem parseIncludedResource_spec :
    (parseIncludedResource false OpenResult.errNotExist = Except.ok []) ∧
    (parseIncludedResource true OpenResult.errNotExist =
      Except.error HErr.couldNotParseResource) ∧
    (∀ (required : Bool) (parsed : Except HErr Entries),
      parseIncludedResource required (OpenResult.opened true parsed) =
        Except.error (HErr.invalidValue
          "included file cannot contain an array as the root value")) ∧
    (∀ (required : Bool) (parsed : Except HErr Entries),
      parseIncludedResource required (OpenResult.opened false parsed) = parsed) ∧
    (∀ es : Entries, mergeObjects es [] = es) := by
  refine ⟨rfl, rfl, fun _ _ => rfl, fun _ _ => rfl, fun es => ?_⟩
  rw [mergeObjects]

/-- C6 witness: a required include whose file root is an array is
rejected even though the parse itself succeeded. -/
theorem parseIncludedResource_spec_witness :
    parseIncludedResource true (OpenResult.opened true (Except.ok [])) =
      Except.error (HErr.invalidValue
        "included file cannot contain an array as the root value") :=
  parseIncludedResource_spec.2.2.1 true (Except.ok [])

/-! ## Claim C4 — reduction of object-bearing concatenations -/

/-- The number of adjacent double quotes at the end of a character
list — the loop variable `adjacentQuoteCount` of
`extractMultiLineString` as a function of the consumed input. -/
def trailingQuotes (l : List Char) : Nat :=
  (l.reverse.takeWhile (fun c => c = '"')).length

theorem trailingQuotes_nil : trailingQuotes [] = 0 := rfl

theorem trailingQuotes_append (acc : List Char) (c : Char) :
    trailingQuotes (acc ++ [c]) =
      if c = '"' then trailingQuotes acc + 1 else 0 := by
  unfold trailingQuotes
  rw [List.reverse_append]
  by_cases hc : c = '"' <;> simp [List.takeWhile, hc]

theorem trailingQuotes_le (l : List Char) : trailingQuotes l ≤ l.length := by
  unfold trailingQuotes
  calc (l.reverse.takeWhile (fun c => c = '"')).length
      ≤ l.reverse.length := (l.reverse.takeWhile _).length_le_of_sublist
        (List.takeWhile_sublist _)
    _ = l.length := List.length_reverse l

/-- Elements within the `takeWhile` prefix satisfy the predicate. -/
theorem takeWhile_get (p : Char → Bool) (l : List Char) :
    ∀ j, j < (l.takeWhile p).length → ∃ c, l.get? j = some c ∧ p c = true := by
  induction l with
  | nil => intro j hj; simp [List.takeWhile] at hj
  | cons a tl ih =>
      intro j hj
      by_cases ha : p a
      · rw [List.takeWhile_cons_of_pos ha] at hj
        cases j with
        | zero => exact ⟨a, rfl, ha⟩
        | succ j => exact ih j (by simpa using hj)
      · rw [List.takeWhile_cons_of_neg ha] at hj
        simp at hj

/-- A prefix of `m` quotes forces `takeWhile` to be at least `m`
long. -/
theorem takeWhile_ge (l : List Char) :
    ∀ m, (∀ j, j < m → l.get? j = some '"') →
      m ≤ (l.takeWhile (fun c => c = '"')).length := by
  induction l with
  | nil =>
      intro m h
      cases m with
      | zero => exact Nat.le_refl 0
      | succ m => simpa using h 0 (Nat.succ_pos m)
  | cons a tl ih =>
      intro m h
      cases m with
      | zero => exact Nat.zero_le _
      | succ m =>
          have ha : a = '"' := by simpa using h 0 (Nat.succ_pos m)
          rw [List.takeWhile_cons_of_pos (by simp [ha])]
          simpa using ih m (fun j hj => by simpa using h (j + 1) (by omega))

/-- The last `trailingQuotes` characters are all quotes. -/
theorem trailingQuotes_get (l : List Char) (j : Nat) (hj : j < trailingQuotes l) :
    l.get? (l.length - 1 - j) = some '"' := by
  obtain ⟨c, hc, hcq⟩ := takeWhile_get (fun c => c = '"') l.reverse j hj
  have hjlen : j < l.length := by
    have := trailingQuotes_le l
    omega
  rw [List.get?_reverse hjlen] at hc
  simp only [decide_eq_true_eq] at hcq
  rw [hcq] at hc
  exact hc

/-- Conversely, `m` quotes at the end force `trailingQuotes ≥ m`. -/
theorem trailingQuotes_ge (l : List Char) (m : Nat) (hm : m ≤ l.length)
    (h : ∀ j, j < m → l.get? (l.length - 1 - j) = some '"') :
    m ≤ trailingQuotes l := by
  unfold trailingQuotes
  refine takeWhile_ge l.reverse m (fun j hj => ?_)
  rw [List.get?_reverse (by omega)]
  exact h j hj

theorem closesAt_parts {cs : List Char} {i : Nat} (h : closesAtB cs i = true) :
    cs.get? i = some '"' ∧ cs.get? (i + 1) = some '"' ∧
    cs.get? (i + 2) = some '"' ∧ ¬(cs.get? (i + 3) = some '"') := by
  simpa [closesAtB, Bool.and_eq_true, decide_eq_true_eq, and_assoc] using h

theorem closesAt_intro {cs : List Char} {i : Nat} (h0 : cs.get? i = some '"')
    (h1 : cs.get? (i + 1) = some '"') (h2 : cs.get? (i + 2) = some '"')
    (h3 : ¬(cs.get? (i + 3) = some '"')) : closesAtB cs i = true := by
  simp only [List.get?_eq_getElem?] at h0 h1 h2 h3
  simp [closesAtB, h0, h1, h2, h3]

theorem closesAt_lt {cs : List Char} {i : Nat} (h : closesAtB cs i = true) :
    i + 3 ≤ cs.length := by
  obtain ⟨-, -, h2, -⟩ := closesAt_parts h
  obtain ⟨hlt, -⟩ := List.get?_eq_some.mp h2
  omega

theorem closesAt_of_short {cs : List Char} {i : Nat} (h : cs.length < i + 3) :
    closesAtB cs i = false := by
  have h2 : cs[i + 2]? = none := List.getElem?_eq_none (by omega)
  simp [closesAtB, h2]

theorem leastCloseAux_none (cs : List Char) (h : ∀ j, closesAtB cs j = false) :
    ∀ k, leastCloseAux cs k = none := by
  have main : ∀ d k, cs.length - k ≤ d → leastCloseAux cs k = none := by
    intro d
    induction d with
    | zero =>
        intro k hk
        rw [leastCloseAux]
        simp [show cs.length ≤ k by omega]
    | succ d ihd =>
        intro k hk
        rw [leastCloseAux]
        by_cases hlen : cs.length ≤ k
        · simp [hlen]
        · simp only [if_neg hlen, h k, if_neg (by simp : ¬(False = True))]
          simpa [h k] using ihd (k + 1) (by omega)
  intro k
  exact main cs.length k (by omega)

theorem leastCloseAux_some (cs : List Char) (i : Nat) (hi : closesAtB cs i = true)
    (hleast : ∀ j, j < i → closesAtB cs j = false) :
    ∀ k, k ≤ i → leastCloseAux cs k = some i := by
  have hilen : i + 3 ≤ cs.length := closesAt_lt hi
  have main : ∀ d k, k ≤ i → i - k ≤ d → leastCloseAux cs k = some i := by
    intro d
    induction d with
    | zero =>
        intro k hk hd
        have : k = i := by omega
        subst this
        rw [leastCloseAux]
        simp [show ¬(cs.length ≤ k) by omega, hi]
    | succ d ihd =>
        intro k hk hd
        by_cases hki : k = i
        · subst hki
          rw [leastCloseAux]
          simp [show ¬(cs.length ≤ k) by omega, hi]
        · rw [leastCloseAux]
          have hklt : k < i := by omega
          simp only [if_neg (show ¬(cs.length ≤ k) by omega), hleast k hklt]
          simpa [hleast k hklt] using ihd (k + 1) (by omega) (by omega)
  intro k hk
  exact main i k hk (by omega)


theorem extractMultiLineLoop_spec (cs₀ : List Char) :
    ∀ (remaining acc : List Char), cs₀ = acc ++ remaining →
    (∀ j, j + 3 ≤ acc.length → closesAtB cs₀ j = false) →
    extractMultiLineLoop remaining (trailingQuotes acc) acc =
      (match leastCloseIdx cs₀ with
        | some i => Except.ok (cs₀.take i)
        | none => Except.error HErr.unclosedMultiLineString) := by
  intro remaining
  induction remaining with
  | nil =>
      intro acc hacc hinv
      have hcs : cs₀ = acc := by simpa using hacc
      subst hcs
      have hlt : trailingQuotes cs₀ < 3 := by
        by_contra hge
        push_neg at hge
        have hlen3 : 3 ≤ cs₀.length := le_trans hge (trailingQuotes_le _)
        have h0 := trailingQuotes_get cs₀ 2 (by omega)
        have h1 := trailingQuotes_get cs₀ 1 (by omega)
        have h2 := trailingQuotes_get cs₀ 0 (by omega)
        rw [show cs₀.length - 1 - 2 = cs₀.length - 3 by omega] at h0
        rw [show cs₀.length - 1 - 1 = cs₀.length - 3 + 1 by omega] at h1
        rw [show cs₀.length - 1 - 0 = cs₀.length - 3 + 2 by omega] at h2
        have h3 : cs₀.get? (cs₀.length - 3 + 3) = none := by
          rw [List.get?_eq_getElem?]
          exact List.getElem?_eq_none (by omega)
        have h3g : cs₀[cs₀.length - 3 + 3]? = none := by
          rw [← List.get?_eq_getElem?]
          exact h3
        have hcl : closesAtB cs₀ (cs₀.length - 3) = true :=
          closesAt_intro h0 h1 h2 (by simp [h3g])
        have := hinv (cs₀.length - 3) (by omega)
        rw [hcl] at this
        exact Bool.noConfusion this
      have hnone : ∀ j, closesAtB cs₀ j = false := by
        intro j
        by_cases hj : j + 3 ≤ cs₀.length
        · exact hinv j hj
        · exact closesAt_of_short (by omega)
      rw [show leastCloseIdx cs₀ = none from leastCloseAux_none cs₀ hnone 0]
      rw [extractMultiLineLoop]
      simp [show ¬(trailingQuotes cs₀ ≥ 3) by omega]
  | cons c rest ih =>
      intro acc hacc hinv
      have hacc' : cs₀ = (acc ++ [c]) ++ rest := by
        rw [hacc, List.append_assoc]
        rfl
      rw [extractMultiLineLoop]
      rw [show (if c = '"' then trailingQuotes acc + 1 else 0) =
            trailingQuotes (acc ++ [c]) from (trailingQuotes_append acc c).symm]
      by_cases hbreak : trailingQuotes (acc ++ [c]) ≥ 3 ∧ rest.head? ≠ some '"'
      · rw [if_pos hbreak]
        have hlen' : 3 ≤ (acc ++ [c]).length :=
          le_trans hbreak.1 (trailingQuotes_le _)
        have hlenacc : (acc ++ [c]).length = acc.length + 1 := by simp
        set n := (acc ++ [c]).length with hn
        -- the three closing quotes, inside acc ++ [c]
        have q0 := trailingQuotes_get (acc ++ [c]) 2 (by omega)
        have q1 := trailingQuotes_get (acc ++ [c]) 1 (by omega)
        have q2 := trailingQuotes_get (acc ++ [c]) 0 (by omega)
        rw [show n - 1 - 2 = n - 3 by omega] at q0
        rw [show n - 1 - 1 = n - 3 + 1 by omega] at q1
        rw [show n - 1 - 0 = n - 3 + 2 by omega] at q2
        -- transport to cs₀
        have t0 : cs₀.get? (n - 3) = some '"' := by
          rw [hacc', List.get?_append (by omega)]; exact q0
        have t1 : cs₀.get? (n - 3 + 1) = some '"' := by
          rw [hacc', List.get?_append (by omega)]; exact q1
        have t2 : cs₀.get? (n - 3 + 2) = some '"' := by
          rw [hacc', List.get?_append (by omega)]; exact q2
        have t3 : cs₀.get? (n - 3 + 3) = rest.head? := by
          rw [hacc', List.get?_append_right (by omega)]
          rw [show n - 3 + 3 - (acc ++ [c]).length = 0 by omega]
          exact List.get?_zero rest
        have hcl : closesAtB cs₀ (n - 3) = true :=
          closesAt_intro t0 t1 t2 (by rw [t3]; exact hbreak.2)
        have hleast : ∀ j, j < n - 3 → closesAtB cs₀ j = false := by
          intro j hj
          exact hinv j (by omega)
        rw [show leastCloseIdx cs₀ = some (n - 3) from
          leastCloseAux_some cs₀ (n - 3) hcl hleast 0 (Nat.zero_le _)]
        have htake : cs₀.take (n - 3) = (acc ++ [c]).take (n - 3) := by
          rw [hacc', List.take_append_eq_append_take]
          rw [show n - 3 - (acc ++ [c]).length = 0 by omega]
          simp
        exact congrArg Except.ok htake.symm
      · rw [if_neg hbreak]
        refine ih (acc ++ [c]) hacc' ?_
        intro j hj
        by_cases hjold : j + 3 ≤ acc.length
        · exact hinv j hjold
        · -- j + 3 = (acc ++ [c]).length
          have hlenacc : (acc ++ [c]).length = acc.length + 1 := by simp
          have hj3 : j + 3 = (acc ++ [c]).length := by omega
          by_cases hq : rest.head? = some '"'
          · -- followed by another quote: the fourth conjunct fails
            have t3 : cs₀.get? (j + 3) = some '"' := by
              rw [hacc', List.get?_append_right (by omega)]
              rw [show j + 3 - (acc ++ [c]).length = 0 by omega]
              rw [List.get?_zero]
              exact hq
            cases hcl : closesAtB cs₀ j with
            | false => rfl
            | true =>
                obtain ⟨-, -, -, h3⟩ := closesAt_parts hcl
                exact absurd t3 h3
          · -- fewer than three adjacent quotes
            have hq3 : trailingQuotes (acc ++ [c]) < 3 := by
              rcases not_and_or.mp hbreak with h | h
              · omega
              · exact absurd hq (by simpa using h)
            cases hcl : closesAtB cs₀ j with
            | false => rfl
            | true =>
                obtain ⟨p0, p1, p2, -⟩ := closesAt_parts hcl
                have b0 : (acc ++ [c]).get? j = some '"' := by
                  rw [hacc', List.get?_append (by omega)] at p0
                  exact p0
                have b1 : (acc ++ [c]).get? (j + 1) = some '"' := by
                  rw [hacc', List.get?_append (by omega)] at p1
                  exact p1
                have b2 : (acc ++ [c]).get? (j + 2) = some '"' := by
                  rw [hacc', List.get?_append (by omega)] at p2
                  exact p2
                have hge : 3 ≤ trailingQuotes (acc ++ [c]) := by
                  refine trailingQuotes_ge (acc ++ [c]) 3 (by omega) ?_
                  intro jj hjj
                  interval_cases jj
                  · rw [show (acc ++ [c]).length - 1 - 0 = j + 2 by omega]
                    exact b2
                  · rw [show (acc ++ [c]).length - 1 - 1 = j + 1 by omega]
                    exact b1
                  · rw [show (acc ++ [c]).length - 1 - 2 = j by omega]
                    exact b0
                omega

/-- C7: a multi-line string opened by three double quotes is closed at
the first run of three or more adjacent double quotes that is not
followed by another double quote (`leastCloseIdx` computes the least
index at which three adjacent quotes start with no further quote after
them); the content is everything before those final three quotes, so
any quotes in the run beyond the final three belong to the content; and
when no such closing run occurs before end of input, parsing fails with
the `unclosedMultiLineString` error. -/
theorem extractMultiLine_spec (cs : List Char) :
    extractMultiLine cs =
      (match leastCloseIdx cs with
        | some i => Except.ok (cs.take i)
        | none => Except.error HErr.unclosedMultiLineString) := by
  have h := extractMultiLineLoop_spec cs cs []
    (by simp) (fun j hj => by simp at hj)
  simpa [extractMultiLine, trailingQuotes] using h

/-! ## Claim C10 — `WithFallback` leaves the fallback's tree unchanged

C10 is about Go aliasing: `mergeObjects` mutates its first argument in
place, and the claim is that the merge is performed into a recursive
copy of the fallback's root, so no pre-existing `Object` (Go map) is
mutated.  To state this at all, objects must have identities, so this
section models the Go heap explicitly: every Go map lives at an address
(`Heap.objs` index), allocation appends, and `copy`/`mergeObjects` are
re-translated as heap transformers (`copyObjH`, `mergeH`).  Non-object
values are opaque (`hprim`) except slices (`harr`), which may contain
object references and are shared verbatim by both `copy` and merge.
Recursion through the heap is modelled with explicit fuel (`none` =
fuel exhausted; Go recurses unboundedly). -/

/-- A Go `Value` as stored in the heap model: an object reference, a
slice (shared verbatim, may contain object references), or any other
value (opaque — never inspected nor mutated by `copy`/`mergeObjects`). -/
inductive HVal where
  | hobj (a : Nat)
  | harr (xs : List HVal)
  | hprim (tag : Nat)

/-- The heap: address `a` holds the entry list of the Go map allocated
`a`-th; allocation appends. -/
structure Heap where
  objs : List (List (String × HVal))

/-- Read the object at an address. -/
def heapGet (h : Heap) (a : Nat) : Option (List (String × HVal)) := h.objs.get? a

/-- Overwrite the object at an address (Go map mutation). -/
def heapSet (h : Heap) (a : Nat) (es : List (String × HVal)) : Heap :=
  ⟨h.objs.set a es⟩

/-- Allocate a fresh object (`Object{}` plus its fill), returning its
address. -/
def heapAlloc (h : Heap) (es : List (String × HVal)) : Heap × Nat :=
  (⟨h.objs ++ [es]⟩, h.objs.length)

/-- All object addresses inside a value are below `n`. -/
def valAddrsBelow : HVal → Nat → Bool
  | .hobj a, n => decide (a < n)
  | .harr [], _ => true
  | .harr (x :: xs), n => valAddrsBelow x n && valAddrsBelow (.harr xs) n
  | .hprim _, _ => true

/-- Well-formed heap: every stored address points into the heap and
every object's keys are unique (Go map keys are unique). -/
def heapWF (h : Heap) : Bool :=
  h.objs.all (fun es =>
    es.all (fun kv => valAddrsBelow kv.2 h.objs.length) &&
    (keysOf es).dedup.length == (keysOf es).length)

mutual

/-- `Object.copy()` (`config.go`) on the heap: a fresh object whose
`Object` values are copied recursively (fresh addresses) and whose
other values — including slices — are shared verbatim. -/
def copyObjH : Nat → Heap → Nat → Option (Heap × Nat)
  | 0, _, _ => none
  | fuel + 1, h, a =>
      match heapGet h a with
      | none => none
      | some es =>
          match copyEntriesH fuel h es with
          | none => none
          | some (h1, es') => some (heapAlloc h1 es')

/-- The entry loop of `Object.copy()`. -/
def copyEntriesH : Nat → Heap → List (String × HVal) →
    Option (Heap × List (String × HVal))
  | 0, _, _ => none
  | _ + 1, h, [] => some (h, [])
  | fuel + 1, h, (k, HVal.hobj b) :: rest =>
      match copyObjH fuel h b with
      | none => none
      | some (h1, bc) =>
          match copyEntriesH fuel h1 rest with
          | none => none
          | some (h2, rest') => some (h2, (k, HVal.hobj bc) :: rest')
  | fuel + 1, h, (k, v) :: rest =>
      match copyEntriesH fuel h rest with
      | none => none
      | some (h1, rest') => some (h1, (k, v) :: rest')

end

/-- `mergeObjects(existing, new)` (`parser.go`) on the heap: `dst` is
the address of `existing` (mutated in place); `src` is the entry list
of `new` (Go's `range` reads it once; merge never mutates `new`).  When
both sides hold objects, merge recursively and write the existing
reference back (`existing[key] = value` with `value = existingObj`);
otherwise assign the new value. -/
def mergeH : Nat → Heap → Nat → List (String × HVal) → Option Heap
  | 0, _, _, _ => none
  | _ + 1, h, _, [] => some h
  | fuel + 1, h, dst, (k, v) :: rest =>
      match lookupKey ((heapGet h dst).getD []) k, v with
      | some (HVal.hobj ea), HVal.hobj na =>
          match mergeH fuel h ea ((heapGet h na).getD []) with
          | none => none
          | some h1 =>
              mergeH fuel
                (heapSet h1 dst (setKey ((heapGet h1 dst).getD []) k (HVal.hobj ea)))
                dst rest
      | _, _ =>
          mergeH fuel (heapSet h dst (setKey ((heapGet h dst).getD []) k v)) dst rest

/-- `Config.WithFallback` (`config.go`) on the heap: when both roots
are objects, copy the fallback's root and merge the current root's
entries into the copy; otherwise return the current root unchanged. -/
def withFallbackH (fuel : Nat) (h : Heap) (croot froot : HVal) :
    Option (Heap × HVal) :=
  match croot, froot with
  | HVal.hobj ca, HVal.hobj fa =>
      match copyObjH fuel h fa with
      | none => none
      | some (h1, ra) =>
          match mergeH fuel h1 ra ((heapGet h1 ca).getD []) with
          | none => none
          | some h2 => some (h2, HVal.hobj ra)
  | croot, _ => some (h, croot)

/-- The object addresses among an entry list's immediate values. -/
def objVals (es : List (String × HVal)) : List Nat :=
  es.filterMap (fun kv => match kv.2 with | HVal.hobj b => some b | _ => none)

/-- The addresses of the object tree rooted at `a`, to depth `d`. -/
def taddrs : Nat → Heap → Nat → List Nat
  | 0, _, a => [a]
  | d + 1, h, a => a :: (objVals ((heapGet h a).getD [])).bind (taddrs d h)

/-- A fresh copied tree of rank `d`: rooted at or above `n0`, every
object entry value is recursively such a tree, every non-object entry
value mentions only old addresses (`< n0`), and the tree's addresses
are pairwise distinct (the copy shares no substructure). -/
def StrictN (n0 : Nat) : Nat → Heap → Nat → Prop
  | 0, _, _ => False
  | d + 1, h, a =>
      n0 ≤ a ∧
      ∃ es, heapGet h a = some es ∧
        (∀ kv ∈ es, ∀ b, kv.2 = HVal.hobj b → StrictN n0 d h b) ∧
        (∀ kv ∈ es, (∀ b, kv.2 ≠ HVal.hobj b) → valAddrsBelow kv.2 n0 = true) ∧
        (taddrs (d + 1) h a).Nodup

/-- The object addresses reached from keys `ks` of an entry list. -/
def ksObjVals (es : List (String × HVal)) (ks : List String) : List Nat :=
  ks.filterMap (fun k => match lookupKey es k with
    | some (HVal.hobj b) => some b
    | _ => none)

/-- The addresses a merge into `a` along the source keys `ks` may
touch: `a` itself plus the trees hanging off its `ks`-entries. -/
def sAddrs (d : Nat) (h : Heap) (a : Nat) (ks : List String) : List Nat :=
  a :: (ksObjVals ((heapGet h a).getD []) ks).bind (taddrs d h)

/-- The merge-target invariant: `a` is fresh, every object value at a
key of `ks` is a strict fresh tree, and those trees together with `a`
are pairwise disjoint.  (Entries at other keys may have been
overwritten with old values already.) -/
def StrictOn (n0 d : Nat) (h : Heap) (a : Nat) (ks : List String) : Prop :=
  n0 ≤ a ∧
  ∃ es, heapGet h a = some es ∧
    (∀ k ∈ ks, ∀ b, lookupKey es k = some (HVal.hobj b) → StrictN n0 d h b) ∧
    (sAddrs d h a ks).Nodup

/-- The old region (addresses `< n0`) is closed: its objects' values
mention only old addresses, and its keys are unique. -/
def OldHeapOk (h : Heap) (n0 : Nat) : Prop :=
  ∀ a, a < n0 → ∀ es, heapGet h a = some es →
    (∀ kv ∈ es, valAddrsBelow kv.2 n0 = true) ∧ (keysOf es).Nodup

/-! ### Heap and list plumbing -/

theorem heapGet_set_self (h : Heap) (a : Nat) (es : List (String × HVal))
    (ha : a < h.objs.length) : heapGet (heapSet h a es) a = some es := by
  simp [heapGet, heapSet, List.get?_set_eq, List.get?_eq_getElem?,
    List.getElem?_set_self, ha]

theorem heapGet_set_ne (h : Heap) (a : Nat) (es : List (String × HVal))
    (b : Nat) (hne : b ≠ a) : heapGet (heapSet h a es) b = heapGet h b := by
  simp [heapGet, heapSet, List.get?_eq_getElem?, List.getElem?_set_ne (Ne.symm hne)]

theorem heapSet_self (h : Heap) (a : Nat) (es : List (String × HVal))
    (hget : heapGet h a = some es) : heapSet h a es = h := by
  unfold heapGet at hget
  unfold heapSet
  cases h with
  | mk objs =>
      simp only [Heap.mk.injEq]
      have : objs.get? a = some es := hget
      clear hget
      induction objs generalizing a with
      | nil => simp [List.get?] at this
      | cons x xs ih =>
          cases a with
          | zero =>
              simp only [List.get?] at this
              cases this
              rfl
          | succ a =>
              simp only [List.get?] at this
              simp [List.set, ih a this]

theorem mem_setKey {α : Type} (es : List (String × α)) (k : String) (u : α)
    (kv : String × α) (h : kv ∈ setKey es k u) : kv.2 = u ∨ kv ∈ es := by
  induction es with
  | nil =>
      have h1 : kv = (k, u) := by simpa [setKey] using h
      subst h1
      exact Or.inl rfl
  | cons kv₁ rest ih =>
      obtain ⟨k₁, v₁⟩ := kv₁
      by_cases hk : k₁ = k
      · subst hk
        simp only [setKey, if_pos rfl] at h
        rcases List.mem_cons.mp h with h1 | h1
        · subst h1
          exact Or.inl rfl
        · exact Or.inr (List.mem_cons_of_mem _ h1)
      · simp only [setKey, if_neg hk] at h
        rcases List.mem_cons.mp h with h1 | h1
        · subst h1
          exact Or.inr (List.mem_cons_self _ _)
        · rcases ih h1 with h2 | h2
          · exact Or.inl h2
          · exact Or.inr (List.mem_cons_of_mem _ h2)

theorem setKey_self {α : Type} (es : List (String × α)) (k : String) (u : α)
    (h : lookupKey es k = some u) : setKey es k u = es := by
  induction es with
  | nil => simp [lookupKey] at h
  | cons kv rest ih =>
      obtain ⟨k₁, v₁⟩ := kv
      by_cases hk : k₁ = k
      · subst hk
        have hv : v₁ = u := by simpa [lookupKey] using h
        subst hv
        simp [setKey]
      · simp only [lookupKey, if_neg hk] at h
        simp [setKey, hk, ih h]

/-! ### Tree-address and strictness lemmas -/

theorem mem_taddrs_self (d : Nat) (h : Heap) (a : Nat) : a ∈ taddrs d h a := by
  cases d <;> simp [taddrs]

theorem objVals_spec (es : List (String × HVal)) (b : Nat) :
    b ∈ objVals es ↔ ∃ kv, kv ∈ es ∧ kv.2 = HVal.hobj b := by
  unfold objVals
  rw [List.mem_filterMap]
  constructor
  · rintro ⟨kv, hkv, hf⟩
    refine ⟨kv, hkv, ?_⟩
    cases hv : kv.2 <;> rw [hv] at hf <;> simp_all
  · rintro ⟨kv, hkv, hv⟩
    exact ⟨kv, hkv, by rw [hv]⟩

theorem ksObjVals_spec (es : List (String × HVal)) (ks : List String) (b : Nat) :
    b ∈ ksObjVals es ks ↔ ∃ k ∈ ks, lookupKey es k = some (HVal.hobj b) := by
  unfold ksObjVals
  rw [List.mem_filterMap]
  constructor
  · rintro ⟨k, hk, hf⟩
    refine ⟨k, hk, ?_⟩
    cases hv : lookupKey es k with
    | none => rw [hv] at hf; simp at hf
    | some v => cases v <;> rw [hv] at hf <;> simp_all
  · rintro ⟨k, hk, hv⟩
    exact ⟨k, hk, by rw [hv]⟩

theorem ksObjVals_mem_objVals (es : List (String × HVal)) (ks : List String)
    (b : Nat) (hb : b ∈ ksObjVals es ks) : b ∈ objVals es := by
  obtain ⟨k, -, hl⟩ := (ksObjVals_spec es ks b).mp hb
  have hmem : (k, HVal.hobj b) ∈ es := by
    clear hb
    induction es with
    | nil => simp [lookupKey] at hl
    | cons kv rest ih =>
        obtain ⟨k₁, v₁⟩ := kv
        by_cases hk : k₁ = k
        · subst hk
          have : v₁ = HVal.hobj b := by simpa [lookupKey] using hl
          subst this
          exact List.mem_cons_self _ _
        · simp only [lookupKey, if_neg hk] at hl
          exact List.mem_cons_of_mem _ (ih hl)
  exact (objVals_spec es b).mpr ⟨(k, HVal.hobj b), hmem, rfl⟩

theorem lookup_mem {α : Type} (es : List (String × α)) (k : String) (v : α)
    (h : lookupKey es k = some v) : (k, v) ∈ es := by
  induction es with
  | nil => simp [lookupKey] at h
  | cons kv rest ih =>
      obtain ⟨k₁, v₁⟩ := kv
      by_cases hk : k₁ = k
      · subst hk
        have : v₁ = v := by simpa [lookupKey] using h
        subst this
        exact List.mem_cons_self _ _
      · simp only [lookupKey, if_neg hk] at h
        exact List.mem_cons_of_mem _ (ih h)

theorem StrictN_taddrs_ge (n0 : Nat) :
    ∀ d h a, StrictN n0 d h a → ∀ x ∈ taddrs d h a, n0 ≤ x := by
  intro d
  induction d with
  | zero =>
      intro h a hs
      exact absurd hs (by simp [StrictN])
  | succ d ih =>
      intro h a hs x hx
      obtain ⟨ha, es, hes, hobjs, -, -⟩ := hs
      simp only [taddrs, hes, Option.getD_some, List.mem_cons] at hx
      rcases hx with rfl | hx
      · exact ha
      · rw [List.mem_bind] at hx
        obtain ⟨b, hb, hxb⟩ := hx
        obtain ⟨kv, hkv, hkvb⟩ := (objVals_spec es b).mp hb
        exact ih h b (hobjs kv hkv b hkvb) x hxb

/-- Pointwise heap agreement on an address list. -/
def AgreeOn (h h' : Heap) (L : List Nat) : Prop :=
  ∀ x ∈ L, heapGet h' x = heapGet h x

theorem taddrs_congr : ∀ (d : Nat) (h h' : Heap) (a : Nat),
    AgreeOn h h' (taddrs d h a) → taddrs d h' a = taddrs d h a := by
  intro d
  induction d with
  | zero => intro h h' a _; rfl
  | succ d ih =>
      intro h h' a hag
      have ha : heapGet h' a = heapGet h a := hag a (by simp [taddrs])
      simp only [taddrs, ha]
      congr 1
      refine List.flatMap_congr (fun b hb => ?_)
      refine ih h h' b (fun x hx => hag x ?_)
      simp only [taddrs, List.mem_cons]
      exact Or.inr (List.mem_bind.mpr ⟨b, hb, hx⟩)

theorem StrictN_congr (n0 : Nat) : ∀ (d : Nat) (h h' : Heap) (a : Nat),
    AgreeOn h h' (taddrs d h a) → StrictN n0 d h a → StrictN n0 d h' a := by
  intro d
  induction d with
  | zero =>
      intro h h' a _ hs
      exact absurd hs (by simp [StrictN])
  | succ d ih =>
      intro h h' a hag hs
      obtain ⟨ha, es, hes, hobjs, holds, hnd⟩ := hs
      have hga : heapGet h' a = some es := by
        rw [hag a (by simp [taddrs]), hes]
      have hsub : ∀ b, b ∈ objVals es → AgreeOn h h' (taddrs d h b) := by
        intro b hb x hx
        refine hag x ?_
        simp only [taddrs, hes, Option.getD_some, List.mem_cons]
        exact Or.inr (List.mem_bind.mpr ⟨b, hb, hx⟩)
      refine ⟨ha, es, hga, ?_, holds, ?_⟩
      · intro kv hkv b hkvb
        exact ih h h' b (hsub b ((objVals_spec es b).mpr ⟨kv, hkv, hkvb⟩))
          (hobjs kv hkv b hkvb)
      · have : taddrs (d + 1) h' a = taddrs (d + 1) h a := by
          refine taddrs_congr (d + 1) h h' a ?_
          intro x hx
          simp only [taddrs, hes, Option.getD_some, List.mem_cons] at hx
          rcases hx with rfl | hx
          · exact hag x (by simp [taddrs])
          · rw [List.mem_bind] at hx
            obtain ⟨b, hb, hxb⟩ := hx
            exact hsub b hb x hxb
        rw [this]
        exact hnd

/-! ### Copy produces strict fresh trees -/

theorem heapGet_alloc_old (h : Heap) (es : List (String × HVal)) (b : Nat)
    (hb : b < h.objs.length) : heapGet ⟨h.objs ++ [es]⟩ b = heapGet h b := by
  unfold heapGet
  exact List.get?_append hb

theorem heapGet_alloc_new (h : Heap) (es : List (String × HVal)) :
    heapGet ⟨h.objs ++ [es]⟩ h.objs.length = some es := by
  unfold heapGet
  exact List.get?_concat_length h.objs es

theorem StrictN_taddrs_nodup (n0 d : Nat) (h : Heap) (a : Nat)
    (hs : StrictN n0 d h a) : (taddrs d h a).Nodup := by
  cases d with
  | zero => exact absurd hs (by simp [StrictN])
  | succ d =>
      obtain ⟨-, es, hes, -, -, hnd⟩ := hs
      exact hnd

/-- A strict tree of rank `d` is one of every higher rank, and deepening
the address walk past its rank finds nothing new. -/
theorem StrictN_succ (n0 : Nat) : ∀ d h a, StrictN n0 d h a →
    taddrs (d + 1) h a = taddrs d h a ∧ StrictN n0 (d + 1) h a := by
  intro d
  induction d with
  | zero =>
      intro h a hs
      exact absurd hs (by simp [StrictN])
  | succ d ih =>
      intro h a hs
      obtain ⟨ha, es, hes, hobjs, holds, hnd⟩ := hs
      have hch : ∀ b ∈ objVals es,
          taddrs (d + 1) h b = taddrs d h b ∧ StrictN n0 (d + 1) h b := by
        intro b hb
        obtain ⟨kv, hkv, hkvb⟩ := (objVals_spec es b).mp hb
        exact ih h b (hobjs kv hkv b hkvb)
      have htad : taddrs (d + 1 + 1) h a = taddrs (d + 1) h a := by
        simp only [taddrs, hes, Option.getD_some]
        congr 1
        exact List.flatMap_congr (fun b hb => (hch b hb).1)
      refine ⟨htad, ha, es, hes, ?_, holds, ?_⟩
      · intro kv hkv b hkvb
        exact (hch b ((objVals_spec es b).mpr ⟨kv, hkv, hkvb⟩)).2
      · rw [htad]
        exact hnd

/-- What a successful copy guarantees: the heap only grows (existing
addresses unchanged), and the result is a strict fresh tree whose
addresses all lie in the newly allocated region. -/
theorem copy_spec (n0 : Nat) : ∀ fuel : Nat,
    (∀ h a h' ac, copyObjH fuel h a = some (h', ac) →
      n0 ≤ h.objs.length → OldHeapOk h n0 → a < n0 →
      h.objs.length ≤ h'.objs.length ∧
      (∀ b, b < h.objs.length → heapGet h' b = heapGet h b) ∧
      StrictN n0 fuel h' ac ∧
      (∀ x ∈ taddrs fuel h' ac, h.objs.length ≤ x ∧ x < h'.objs.length)) ∧
    (∀ h es h' es', copyEntriesH fuel h es = some (h', es') →
      n0 ≤ h.objs.length → OldHeapOk h n0 →
      (∀ kv ∈ es, valAddrsBelow kv.2 n0 = true) →
      h.objs.length ≤ h'.objs.length ∧
      (∀ b, b < h.objs.length → heapGet h' b = heapGet h b) ∧
      (∀ kv ∈ es', ∀ b, kv.2 = HVal.hobj b → StrictN n0 fuel h' b) ∧
      (∀ kv ∈ es', (∀ b, kv.2 ≠ HVal.hobj b) → valAddrsBelow kv.2 n0 = true) ∧
      ((objVals es').bind (taddrs fuel h')).Nodup ∧
      (∀ x ∈ (objVals es').bind (taddrs fuel h'),
        h.objs.length ≤ x ∧ x < h'.objs.length)) := by
  have hcb : ∀ (x : Nat) (L : List Nat) (f : Nat → List Nat),
      (x :: L).bind f = f x ++ L.bind f := fun _ _ _ => rfl
  intro fuel
  induction fuel with
  | zero =>
      constructor
      · intro h a h' ac hrun
        simp [copyObjH] at hrun
      · intro h es h' es' hrun
        simp [copyEntriesH] at hrun
  | succ fuel ih =>
      obtain ⟨ihObj, ihEnt⟩ := ih
      constructor
      · -- copyObjH (fuel+1)
        intro h a h' ac hrun hn0 hold ha
        cases hga : heapGet h a with
        | none => simp [copyObjH, hga] at hrun
        | some es =>
            cases hce : copyEntriesH fuel h es with
            | none => simp [copyObjH, hga, hce] at hrun
            | some pr =>
                obtain ⟨h1, es'⟩ := pr
                simp only [copyObjH, hga, hce, heapAlloc, Option.some.injEq,
                  Prod.mk.injEq] at hrun
                obtain ⟨hh', hac⟩ := hrun
                subst hh'
                subst hac
                have hesold : ∀ kv ∈ es, valAddrsBelow kv.2 n0 = true :=
                  (hold a ha es hga).1
                obtain ⟨hlen1, hfr1, hstrict1, holdv1, hnd1, hbounds1⟩ :=
                  ihEnt h es h1 es' hce hn0 hold hesold
                have hget_new : heapGet ⟨h1.objs ++ [es']⟩ h1.objs.length
                    = some es' := heapGet_alloc_new h1 es'
                have hlen' : (⟨h1.objs ++ [es']⟩ : Heap).objs.length
                    = h1.objs.length + 1 := by simp
                have hfr' : ∀ b, b < h1.objs.length →
                    heapGet ⟨h1.objs ++ [es']⟩ b = heapGet h1 b :=
                  fun b hb => heapGet_alloc_old h1 es' b hb
                have hagree : ∀ b ∈ objVals es',
                    AgreeOn h1 ⟨h1.objs ++ [es']⟩ (taddrs fuel h1 b) := by
                  intro b hb x hx
                  exact hfr' x (hbounds1 x (List.mem_bind.mpr ⟨b, hb, hx⟩)).2
                have htad : ∀ b ∈ objVals es',
                    taddrs fuel ⟨h1.objs ++ [es']⟩ b = taddrs fuel h1 b :=
                  fun b hb => taddrs_congr fuel h1 _ b (hagree b hb)
                have hbind' : (objVals es').bind (taddrs fuel ⟨h1.objs ++ [es']⟩)
                    = (objVals es').bind (taddrs fuel h1) :=
                  List.flatMap_congr htad
                have htad' : taddrs (fuel + 1) ⟨h1.objs ++ [es']⟩ h1.objs.length
                    = h1.objs.length :: (objVals es').bind (taddrs fuel h1) := by
                  simp only [taddrs, hget_new, Option.getD_some]
                  rw [hbind']
                refine ⟨by omega, ?_, ?_, ?_⟩
                · intro b hb
                  rw [hfr' b (by omega)]
                  exact hfr1 b hb
                · refine ⟨by omega, es', hget_new, ?_, holdv1, ?_⟩
                  · intro kv hkv b hkvb
                    exact StrictN_congr n0 fuel h1 _ b
                      (hagree b ((objVals_spec es' b).mpr ⟨kv, hkv, hkvb⟩))
                      (hstrict1 kv hkv b hkvb)
                  · rw [htad']
                    refine List.nodup_cons.mpr ⟨?_, hnd1⟩
                    intro hmem
                    have := (hbounds1 _ hmem).2
                    omega
                · intro x hx
                  rw [htad'] at hx
                  rcases List.mem_cons.mp hx with rfl | hx
                  · exact ⟨by omega, by omega⟩
                  · have := hbounds1 x hx
                    exact ⟨by omega, by omega⟩
      · -- copyEntriesH (fuel+1)
        intro h es h' es' hrun hn0 hold hvals
        rcases es with _ | ⟨⟨k, v⟩, rest⟩
        · simp only [copyEntriesH, Option.some.injEq, Prod.mk.injEq] at hrun
          obtain ⟨hh', hes'⟩ := hrun
          subst hh'
          subst hes'
          refine ⟨Nat.le_refl _, fun b _ => rfl, ?_, ?_, ?_, ?_⟩
          · intro kv hkv
            simp at hkv
          · intro kv hkv
            simp at hkv
          · simp [objVals]
          · intro x hx
            simp [objVals] at hx
        · cases v with
          | hobj b =>
              cases hco : copyObjH fuel h b with
              | none => simp [copyEntriesH, hco] at hrun
              | some pr =>
                  obtain ⟨h1, bc⟩ := pr
                  cases hcr : copyEntriesH fuel h1 rest with
                  | none => simp [copyEntriesH, hco, hcr] at hrun
                  | some pr2 =>
                      obtain ⟨h2, rest'⟩ := pr2
                      simp only [copyEntriesH, hco, hcr, Option.some.injEq,
                        Prod.mk.injEq] at hrun
                      obtain ⟨hh', hes'⟩ := hrun
                      subst hh'
                      subst hes'
                      have hbold : b < n0 := by
                        have := hvals (k, HVal.hobj b) (List.mem_cons_self _ _)
                        simpa [valAddrsBelow] using this
                      obtain ⟨hlen1, hfr1, hstrict1, hbounds1⟩ :=
                        ihObj h b h1 bc hco hn0 hold hbold
                      have hn1 : n0 ≤ h1.objs.length := by omega
                      have hold1 : OldHeapOk h1 n0 := by
                        intro x hx exs hg
                        refine hold x hx exs ?_
                        rw [← hfr1 x (by omega)]
                        exact hg
                      have hvals1 : ∀ kv ∈ rest, valAddrsBelow kv.2 n0 = true :=
                        fun kv hkv => hvals kv (List.mem_cons_of_mem _ hkv)
                      obtain ⟨hlen2, hfr2, hstrict2, holdv2, hnd2, hbounds2⟩ :=
                        ihEnt h1 rest h2 rest' hcr hn1 hold1 hvals1
                      have hagreebc : AgreeOn h1 h2 (taddrs fuel h1 bc) := by
                        intro x hx
                        exact hfr2 x (hbounds1 x hx).2
                      have htadbc : taddrs fuel h2 bc = taddrs fuel h1 bc :=
                        taddrs_congr fuel h1 h2 bc hagreebc
                      have hstrictbc : StrictN n0 fuel h2 bc :=
                        StrictN_congr n0 fuel h1 h2 bc hagreebc hstrict1
                      have hsbc := StrictN_succ n0 fuel h2 bc hstrictbc
                      have hrest' : ∀ b' ∈ objVals rest',
                          taddrs (fuel + 1) h2 b' = taddrs fuel h2 b' := by
                        intro b' hb'
                        obtain ⟨kv, hkv, hkvb⟩ := (objVals_spec rest' b').mp hb'
                        exact (StrictN_succ n0 fuel h2 b'
                          (hstrict2 kv hkv b' hkvb)).1
                      have hbindrest : (objVals rest').bind (taddrs (fuel + 1) h2)
                          = (objVals rest').bind (taddrs fuel h2) :=
                        List.flatMap_congr hrest'
                      have hov : objVals ((k, HVal.hobj bc) :: rest')
                          = bc :: objVals rest' := by
                        simp [objVals]
                      refine ⟨by omega, ?_, ?_, ?_, ?_, ?_⟩
                      · intro x hx
                        rw [hfr2 x (by omega)]
                        exact hfr1 x hx
                      · intro kv hkv b' hkvb
                        rcases List.mem_cons.mp hkv with rfl | hkv2
                        · have hbb : bc = b' := by injection hkvb
                          subst hbb
                          exact hsbc.2
                        · exact (StrictN_succ n0 fuel h2 b'
                            (hstrict2 kv hkv2 b' hkvb)).2
                      · intro kv hkv hnotobj
                        rcases List.mem_cons.mp hkv with rfl | hkv2
                        · exact absurd rfl (hnotobj bc)
                        · exact holdv2 kv hkv2 hnotobj
                      · rw [hov, hcb, hsbc.1, htadbc, hbindrest]
                        refine List.Nodup.append
                          (StrictN_taddrs_nodup n0 fuel h1 bc hstrict1) hnd2 ?_
                        intro x hx1 hx2
                        have hb1 := hbounds1 x hx1
                        have hb2 := hbounds2 x hx2
                        omega
                      · intro x hx
                        rw [hov, hcb, hsbc.1, htadbc, hbindrest] at hx
                        rcases List.mem_append.mp hx with hx1 | hx2
                        · have := hbounds1 x hx1
                          exact ⟨by omega, by omega⟩
                        · have := hbounds2 x hx2
                          exact ⟨by omega, by omega⟩
          | harr xs =>
              cases hcr : copyEntriesH fuel h rest with
              | none => simp [copyEntriesH, hcr] at hrun
              | some pr =>
                  obtain ⟨h1, rest'⟩ := pr
                  simp only [copyEntriesH, hcr, Option.some.injEq,
                    Prod.mk.injEq] at hrun
                  obtain ⟨hh', hes'⟩ := hrun
                  subst hh'
                  subst hes'
                  have hvals1 : ∀ kv ∈ rest, valAddrsBelow kv.2 n0 = true :=
                    fun kv hkv => hvals kv (List.mem_cons_of_mem _ hkv)
                  obtain ⟨hlen2, hfr2, hstrict2, holdv2, hnd2, hbounds2⟩ :=
                    ihEnt h rest h1 rest' hcr hn0 hold hvals1
                  have hrest' : ∀ b' ∈ objVals rest',
                      taddrs (fuel + 1) h1 b' = taddrs fuel h1 b' := by
                    intro b' hb'
                    obtain ⟨kv, hkv, hkvb⟩ := (objVals_spec rest' b').mp hb'
                    exact (StrictN_succ n0 fuel h1 b'
                      (hstrict2 kv hkv b' hkvb)).1
                  have hbindrest : (objVals rest').bind (taddrs (fuel + 1) h1)
                      = (objVals rest').bind (taddrs fuel h1) :=
                    List.flatMap_congr hrest'
                  have hov : objVals ((k, HVal.harr xs) :: rest')
                      = objVals rest' := by
                    simp [objVals]
                  refine ⟨hlen2, hfr2, ?_, ?_, ?_, ?_⟩
                  · intro kv hkv b hkvb
                    rcases List.mem_cons.mp hkv with rfl | hkv2
                    · exact absurd hkvb (by simp)
                    · exact (StrictN_succ n0 fuel h1 b
                        (hstrict2 kv hkv2 b hkvb)).2
                  · intro kv hkv hnotobj
                    rcases List.mem_cons.mp hkv with rfl | hkv2
                    · exact hvals _ (List.mem_cons_self _ _)
                    · exact holdv2 kv hkv2 hnotobj
                  · rw [hov, hbindrest]
                    exact hnd2
                  · intro x hx
                    rw [hov, hbindrest] at hx
                    exact hbounds2 x hx
          | hprim t =>
              cases hcr : copyEntriesH fuel h rest with
              | none => simp [copyEntriesH, hcr] at hrun
              | some pr =>
                  obtain ⟨h1, rest'⟩ := pr
                  simp only [copyEntriesH, hcr, Option.some.injEq,
                    Prod.mk.injEq] at hrun
                  obtain ⟨hh', hes'⟩ := hrun
                  subst hh'
                  subst hes'
                  have hvals1 : ∀ kv ∈ rest, valAddrsBelow kv.2 n0 = true :=
                    fun kv hkv => hvals kv (List.mem_cons_of_mem _ hkv)
                  obtain ⟨hlen2, hfr2, hstrict2, holdv2, hnd2, hbounds2⟩ :=
                    ihEnt h rest h1 rest' hcr hn0 hold hvals1
                  have hrest' : ∀ b' ∈ objVals rest',
                      taddrs (fuel + 1) h1 b' = taddrs fuel h1 b' := by
                    intro b' hb'
                    obtain ⟨kv, hkv, hkvb⟩ := (objVals_spec rest' b').mp hb'
                    exact (StrictN_succ n0 fuel h1 b'
                      (hstrict2 kv hkv b' hkvb)).1
                  have hbindrest : (objVals rest').bind (taddrs (fuel + 1) h1)
                      = (objVals rest').bind (taddrs fuel h1) :=
                    List.flatMap_congr hrest'
                  have hov : objVals ((k, HVal.hprim t) :: rest')
                      = objVals rest' := by
                    simp [objVals]
                  refine ⟨hlen2, hfr2, ?_, ?_, ?_, ?_⟩
                  · intro kv hkv b hkvb
                    rcases List.mem_cons.mp hkv with rfl | hkv2
                    · exact absurd hkvb (by simp)
                    · exact (StrictN_succ n0 fuel h1 b
                        (hstrict2 kv hkv2 b hkvb)).2
                  · intro kv hkv hnotobj
                    rcases List.mem_cons.mp hkv with rfl | hkv2
                    · exact hvals _ (List.mem_cons_self _ _)
                    · exact holdv2 kv hkv2 hnotobj
                  · rw [hov, hbindrest]
                    exact hnd2
                  · intro x hx
                    rw [hov, hbindrest] at hx
                    exact hbounds2 x hx

theorem heapGet_lt (h : Heap) (a : Nat) (es : List (String × HVal))
    (hg : heapGet h a = some es) : a < h.objs.length :=
  (List.get?_eq_some.mp hg).1

theorem sAddrs_subset_taddrs (d : Nat) (h : Heap) (a : Nat) (ks : List String) :
    ∀ x ∈ sAddrs d h a ks, x ∈ taddrs (d + 1) h a := by
  intro x hx
  simp only [sAddrs, List.mem_cons] at hx
  rcases hx with rfl | hx
  · exact mem_taddrs_self _ h x
  · rw [List.mem_bind] at hx
    obtain ⟨b, hb, hxb⟩ := hx
    have hbo : b ∈ objVals ((heapGet h a).getD []) :=
      ksObjVals_mem_objVals _ ks b hb
    simp only [taddrs, List.mem_cons]
    exact Or.inr (List.mem_bind.mpr ⟨b, hbo, hxb⟩)

theorem StrictOn_sAddrs_ge (n0 d : Nat) (h : Heap) (a : Nat) (ks : List String)
    (hso : StrictOn n0 d h a ks) : ∀ x ∈ sAddrs d h a ks, n0 ≤ x := by
  obtain ⟨ha, es, hes, hstr, -⟩ := hso
  intro x hx
  simp only [sAddrs, hes, Option.getD_some, List.mem_cons] at hx
  rcases hx with rfl | hx
  · exact ha
  · rw [List.mem_bind] at hx
    obtain ⟨b, hb, hxb⟩ := hx
    obtain ⟨k, hk, hlk⟩ := (ksObjVals_spec es ks b).mp hb
    exact StrictN_taddrs_ge n0 d h b (hstr k hk b hlk) x hxb

theorem objVals_key_unique (es : List (String × HVal)) :
    (objVals es).Nodup → ∀ k1 k2 b,
      (k1, HVal.hobj b) ∈ es → (k2, HVal.hobj b) ∈ es → k1 = k2 := by
  induction es with
  | nil =>
      intro _ k1 k2 b h1 h2
      simp at h1
  | cons e tl ih =>
      obtain ⟨ke, ve⟩ := e
      intro hnd k1 k2 b h1 h2
      have hndtl : (objVals tl).Nodup := by
        cases ve with
        | hobj c =>
            have h' : (c :: objVals tl).Nodup := by simpa [objVals] using hnd
            exact (List.nodup_cons.mp h').2
        | harr xs => simpa [objVals] using hnd
        | hprim t => simpa [objVals] using hnd
      rcases List.mem_cons.mp h1 with he1 | ht1
      · rcases List.mem_cons.mp h2 with he2 | ht2
        · injection he1 with hk1 hv1
          injection he2 with hk2 hv2
          rw [hk1, hk2]
        · injection he1 with hk1 hv1
          subst hv1
          have hnd' : (b :: objVals tl).Nodup := by simpa [objVals] using hnd
          have hmem : b ∈ objVals tl :=
            (objVals_spec tl b).mpr ⟨(k2, HVal.hobj b), ht2, rfl⟩
          exact absurd hmem (List.nodup_cons.mp hnd').1
      · rcases List.mem_cons.mp h2 with he2 | ht2
        · injection he2 with hk2 hv2
          subst hv2
          have hnd' : (b :: objVals tl).Nodup := by simpa [objVals] using hnd
          have hmem : b ∈ objVals tl :=
            (objVals_spec tl b).mpr ⟨(k1, HVal.hobj b), ht1, rfl⟩
          exact absurd hmem (List.nodup_cons.mp hnd').1
        · exact ih hndtl k1 k2 b ht1 ht2

/-- A strict tree of rank `d + 1` is a valid merge target along any
duplicate-free key list. -/
theorem StrictN_StrictOn (n0 d : Nat) (h : Heap) (a : Nat) (ks : List String)
    (hks : ks.Nodup) (hs : StrictN n0 (d + 1) h a) :
    StrictOn n0 d h a ks := by
  obtain ⟨ha, es, hes, hobjs, holds, hnd⟩ := hs
  have htd : taddrs (d + 1) h a = a :: (objVals es).bind (taddrs d h) := by
    simp only [taddrs, hes, Option.getD_some]
  rw [htd] at hnd
  obtain ⟨hna, hbindnd⟩ := List.nodup_cons.mp hnd
  obtain ⟨hEachNd, hPw⟩ := List.nodup_bind.mp hbindnd
  have hovnd : (objVals es).Nodup := by
    refine hPw.imp ?_
    intro x y hd heq
    subst heq
    exact hd (mem_taddrs_self d h x) (mem_taddrs_self d h x)
  have hksnd : (ksObjVals es ks).Nodup := by
    refine List.Nodup.filterMap ?_ hks
    intro k1 k2 b hb1 hb2
    have hl1 : lookupKey es k1 = some (HVal.hobj b) := by
      cases hv : lookupKey es k1 with
      | none => simp only [hv] at hb1; simp at hb1
      | some v => cases v <;> simp only [hv] at hb1 <;> simp_all
    have hl2 : lookupKey es k2 = some (HVal.hobj b) := by
      cases hv : lookupKey es k2 with
      | none => simp only [hv] at hb2; simp at hb2
      | some v => cases v <;> simp only [hv] at hb2 <;> simp_all
    exact objVals_key_unique es hovnd k1 k2 b
      (lookup_mem es k1 _ hl1) (lookup_mem es k2 _ hl2)
  have hsymm : Symmetric (List.Disjoint on (taddrs d h)) := by
    intro x y hd
    exact List.disjoint_comm.mp hd
  refine ⟨ha, es, hes, ?_, ?_⟩
  · intro k hk b hlk
    exact hobjs (k, HVal.hobj b) (lookup_mem es k _ hlk) b rfl
  · have hseq : sAddrs d h a ks = a :: (ksObjVals es ks).bind (taddrs d h) := by
      simp only [sAddrs, hes, Option.getD_some]
    rw [hseq]
    refine List.nodup_cons.mpr ⟨?_, ?_⟩
    · intro hmem
      rw [List.mem_bind] at hmem
      obtain ⟨b, hb, hab⟩ := hmem
      exact hna (List.mem_bind.mpr ⟨b, ksObjVals_mem_objVals es ks b hb, hab⟩)
    · refine List.nodup_bind.mpr ⟨?_, ?_⟩
      · intro b hb
        exact hEachNd b (ksObjVals_mem_objVals es ks b hb)
      · refine hksnd.imp_of_mem ?_
        intro b1 b2 hb1 hb2 hne
        exact hPw.forall hsymm (ksObjVals_mem_objVals es ks b1 hb1)
          (ksObjVals_mem_objVals es ks b2 hb2) hne

/-- A well-formed heap is an old region closed below its own length. -/
theorem heapWF_OldHeapOk (h : Heap) (hwf : heapWF h = true) :
    OldHeapOk h h.objs.length := by
  intro a ha es hg
  have hmem : es ∈ h.objs := List.get?_mem hg
  have hall := (List.all_eq_true.mp hwf) es hmem
  rw [Bool.and_eq_true] at hall
  obtain ⟨hvals, hdedup⟩ := hall
  constructor
  · intro kv hkv
    exact (List.all_eq_true.mp hvals) kv hkv
  · have hlen : (keysOf es).dedup.length = (keysOf es).length := by
      simpa using hdedup
    have heq := (List.dedup_sublist (keysOf es)).eq_of_length hlen
    rw [← heq]
    exact List.nodup_dedup (keysOf es)

/-- Merging `src` into the strict fresh tree at `dst` only writes inside
`sAddrs`: `dst` itself and the trees hanging off `dst`'s entries at the
source keys.  In particular no address outside the copied region
changes. -/
theorem merge_frame (n0 : Nat) : ∀ fuel : Nat, ∀ d (h : Heap) dst src h',
    mergeH fuel h dst src = some h' →
    StrictOn n0 d h dst (keysOf src) →
    (∀ kv ∈ src, valAddrsBelow kv.2 n0 = true) →
    (keysOf src).Nodup →
    OldHeapOk h n0 →
    ∀ b, heapGet h' b ≠ heapGet h b → b ∈ sAddrs d h dst (keysOf src) := by
  have hcb : ∀ (x : Nat) (L : List Nat) (f : Nat → List Nat),
      (x :: L).bind f = f x ++ L.bind f := fun _ _ _ => rfl
  intro fuel
  induction fuel with
  | zero =>
      intro d h dst src h' hrun
      simp [mergeH] at hrun
  | succ fuel ih =>
      intro d h dst src h' hrun hso hsv hknd hold b hb
      rcases src with _ | ⟨⟨k, v⟩, rest⟩
      · simp only [mergeH, Option.some.injEq] at hrun
        subst hrun
        exact absurd rfl hb
      · have hk0 : keysOf ((k, v) :: rest) = k :: keysOf rest := rfl
        obtain ⟨hdst_n0, es, hes, hstr, hsnd⟩ := hso
        rw [hk0] at hstr hsnd hknd
        have hknotin : k ∉ keysOf rest := (List.nodup_cons.mp hknd).1
        have hkndrest : (keysOf rest).Nodup := (List.nodup_cons.mp hknd).2
        have hdlt : dst < h.objs.length := heapGet_lt h dst es hes
        have hsa : sAddrs d h dst (k :: keysOf rest)
            = dst :: (ksObjVals es (k :: keysOf rest)).bind (taddrs d h) := by
          simp only [sAddrs, hes, Option.getD_some]
        rw [hsa] at hsnd
        obtain ⟨hdnb, hbnd⟩ := List.nodup_cons.mp hsnd
        rw [hk0, hsa]
        simp only [mergeH, hes, Option.getD_some] at hrun
        split at hrun
        · -- existing and new are both objects
          rename_i _x0 _v0 ea na hlk
          cases hm : mergeH fuel h ea ((heapGet h na).getD []) with
          | none => simp [hm] at hrun
          | some h1 =>
              simp only [hm] at hrun
              have hstrEA : StrictN n0 d h ea :=
                hstr k (List.mem_cons_self _ _) ea hlk
              cases d with
              | zero => exact absurd hstrEA (by simp [StrictN])
              | succ d' =>
                  have hna_lt : na < n0 := by
                    have := hsv (k, HVal.hobj na) (List.mem_cons_self _ _)
                    simpa [valAddrsBelow] using this
                  have hNA : (∀ kv ∈ (heapGet h na).getD [],
                        valAddrsBelow kv.2 n0 = true) ∧
                      (keysOf ((heapGet h na).getD [])).Nodup := by
                    cases hgna : heapGet h na with
                    | none => simp [keysOf]
                    | some esna => simpa using hold na hna_lt esna hgna
                  have hsoEA : StrictOn n0 d' h ea
                      (keysOf ((heapGet h na).getD [])) :=
                    StrictN_StrictOn n0 d' h ea _ hNA.2 hstrEA
                  have hIH1 := ih d' h ea ((heapGet h na).getD []) h1 hm
                    hsoEA hNA.1 hNA.2 hold
                  have hW1 : ∀ x, heapGet h1 x ≠ heapGet h x →
                      x ∈ taddrs (d' + 1) h ea :=
                    fun x hx => sAddrs_subset_taddrs d' h ea _ x (hIH1 x hx)
                  have hkcons : ksObjVals es (k :: keysOf rest)
                      = ea :: ksObjVals es (keysOf rest) := by
                    simp [ksObjVals, List.filterMap_cons, hlk]
                  rw [hkcons, hcb] at hdnb hbnd ⊢
                  obtain ⟨hndEA, hndrest, hdisj⟩ := List.nodup_append.mp hbnd
                  have hdst_not_ea : dst ∉ taddrs (d' + 1) h ea := by
                    intro hmem
                    exact hdnb (List.mem_append.mpr (Or.inl hmem))
                  have h1dst : heapGet h1 dst = some es := by
                    by_cases hc : heapGet h1 dst = heapGet h dst
                    · rw [hc, hes]
                    · exact absurd (hW1 dst hc) hdst_not_ea
                  simp only [h1dst, Option.getD_some, setKey_self es k _ hlk,
                    heapSet_self h1 dst es h1dst] at hrun
                  have hfr1 : ∀ x, x < n0 → heapGet h1 x = heapGet h x := by
                    intro x hx
                    by_contra hc
                    have := StrictN_taddrs_ge n0 (d' + 1) h ea hstrEA x (hW1 x hc)
                    omega
                  have hold1 : OldHeapOk h1 n0 := by
                    intro x hx esx hg
                    refine hold x hx esx ?_
                    rw [← hfr1 x hx]
                    exact hg
                  have hagree : ∀ b' ∈ ksObjVals es (keysOf rest),
                      AgreeOn h h1 (taddrs (d' + 1) h b') := by
                    intro b' hb' x hx
                    by_contra hc
                    exact hdisj (hW1 x hc) (List.mem_bind.mpr ⟨b', hb', hx⟩)
                  have hbindeq : (ksObjVals es (keysOf rest)).bind
                        (taddrs (d' + 1) h1)
                      = (ksObjVals es (keysOf rest)).bind (taddrs (d' + 1) h) :=
                    List.flatMap_congr
                      (fun b' hb' => taddrs_congr _ h h1 b' (hagree b' hb'))
                  have hsa1 : sAddrs (d' + 1) h1 dst (keysOf rest)
                      = dst :: (ksObjVals es (keysOf rest)).bind
                          (taddrs (d' + 1) h) := by
                    simp only [sAddrs, h1dst, Option.getD_some]
                    rw [hbindeq]
                  have hso1 : StrictOn n0 (d' + 1) h1 dst (keysOf rest) := by
                    refine ⟨hdst_n0, es, h1dst, ?_, ?_⟩
                    · intro k' hk' b' hlk'
                      refine StrictN_congr n0 (d' + 1) h h1 b' ?_
                        (hstr k' (List.mem_cons_of_mem _ hk') b' hlk')
                      exact hagree b'
                        ((ksObjVals_spec es (keysOf rest) b').mpr ⟨k', hk', hlk'⟩)
                    · rw [hsa1]
                      refine List.nodup_cons.mpr ⟨?_, hndrest⟩
                      intro hmem
                      exact hdnb (List.mem_append.mpr (Or.inr hmem))
                  have hIH2 := ih (d' + 1) h1 dst rest h' hrun hso1
                    (fun kv hkv => hsv kv (List.mem_cons_of_mem _ hkv))
                    hkndrest hold1
                  by_cases hc1 : heapGet h1 b = heapGet h b
                  · have hc2 : heapGet h' b ≠ heapGet h1 b := by
                      rw [hc1]
                      exact hb
                    have hmem := hIH2 b hc2
                    rw [hsa1] at hmem
                    rcases List.mem_cons.mp hmem with rfl | hmem2
                    · exact List.mem_cons_self _ _
                    · exact List.mem_cons_of_mem _
                        (List.mem_append.mpr (Or.inr hmem2))
                  · exact List.mem_cons_of_mem _
                      (List.mem_append.mpr (Or.inl (hW1 b hc1)))
        · -- at least one side is not an object: plain overwrite
          rename_i v0 _x1 _x2 _hnm
          have hg2dst : heapGet (heapSet h dst (setKey es k v0)) dst
              = some (setKey es k v0) := heapGet_set_self h dst _ hdlt
          have hg2ne : ∀ x, x ≠ dst →
              heapGet (heapSet h dst (setKey es k v0)) x = heapGet h x :=
            fun x hx => heapGet_set_ne h dst _ x hx
          have hcases : ksObjVals es (k :: keysOf rest)
                = ksObjVals es (keysOf rest) ∨
              ∃ c, ksObjVals es (k :: keysOf rest)
                = c :: ksObjVals es (keysOf rest) := by
            cases hv : lookupKey es k with
            | none =>
                left
                simp [ksObjVals, List.filterMap_cons, hv]
            | some u =>
                cases u with
                | hobj c =>
                    right
                    exact ⟨c, by simp [ksObjVals, List.filterMap_cons, hv]⟩
                | harr xs =>
                    left
                    simp [ksObjVals, List.filterMap_cons, hv]
                | hprim t =>
                    left
                    simp [ksObjVals, List.filterMap_cons, hv]
          have hsubB : ((ksObjVals es (keysOf rest)).bind (taddrs d h)).Sublist
              ((ksObjVals es (k :: keysOf rest)).bind (taddrs d h)) := by
            rcases hcases with heq | ⟨c, heq⟩
            · rw [heq]
            · rw [heq, hcb]
              exact List.sublist_append_right _ _
          have hdstnot : ∀ b' ∈ ksObjVals es (keysOf rest),
              dst ∉ taddrs d h b' := by
            intro b' hb' hmem
            exact hdnb (hsubB.subset (List.mem_bind.mpr ⟨b', hb', hmem⟩))
          have hagree : ∀ b' ∈ ksObjVals es (keysOf rest),
              AgreeOn h (heapSet h dst (setKey es k v0)) (taddrs d h b') := by
            intro b' hb' x hx
            refine hg2ne x ?_
            intro hxd
            subst hxd
            exact hdstnot b' hb' hx
          have hksv2 : ksObjVals (setKey es k v0) (keysOf rest)
              = ksObjVals es (keysOf rest) := by
            unfold ksObjVals
            refine List.filterMap_congr ?_
            intro k' hk'
            rw [lookup_setKey_ne es k v0 k' (fun heq => hknotin (heq ▸ hk'))]
          have hbindeq : (ksObjVals es (keysOf rest)).bind
                (taddrs d (heapSet h dst (setKey es k v0)))
              = (ksObjVals es (keysOf rest)).bind (taddrs d h) :=
            List.flatMap_congr
              (fun b' hb' => taddrs_congr d h _ b' (hagree b' hb'))
          have hsa2 : sAddrs d (heapSet h dst (setKey es k v0)) dst (keysOf rest)
              = dst :: (ksObjVals es (keysOf rest)).bind (taddrs d h) := by
            simp only [sAddrs, hg2dst, Option.getD_some, hksv2]
            rw [hbindeq]
          have hso2 : StrictOn n0 d (heapSet h dst (setKey es k v0)) dst
              (keysOf rest) := by
            refine ⟨hdst_n0, setKey es k v0, hg2dst, ?_, ?_⟩
            · intro k' hk' b' hlk'
              rw [lookup_setKey_ne es k v0 k'
                (fun heq => hknotin (heq ▸ hk'))] at hlk'
              refine StrictN_congr n0 d h _ b' ?_
                (hstr k' (List.mem_cons_of_mem _ hk') b' hlk')
              exact hagree b'
                ((ksObjVals_spec es (keysOf rest) b').mpr ⟨k', hk', hlk'⟩)
            · rw [hsa2]
              refine List.nodup_cons.mpr ⟨?_, hsubB.nodup hbnd⟩
              intro hmem
              exact hdnb (hsubB.subset hmem)
          have hold2 : OldHeapOk (heapSet h dst (setKey es k v0)) n0 := by
            intro x hx esx hg
            refine hold x hx esx ?_
            rw [← hg2ne x (by omega)]
            exact hg
          have hIH2 := ih d (heapSet h dst (setKey es k v0)) dst rest h' hrun
            hso2 (fun kv hkv => hsv kv (List.mem_cons_of_mem _ hkv))
            hkndrest hold2
          by_cases hbd : b = dst
          · subst hbd
            exact List.mem_cons_self _ _
          · by_cases hc1 : heapGet h' b
                = heapGet (heapSet h dst (setKey es k v0)) b
            · exact absurd (hc1.trans (hg2ne b hbd)) hb
            · have hmem := hIH2 b hc1
              rw [hsa2] at hmem
              rcases List.mem_cons.mp hmem with rfl | hmem2
              · exact List.mem_cons_self _ _
              · exact List.mem_cons_of_mem _ (hsubB.subset hmem2)

/-- C10: `Config.WithFallback` on two object roots merges the current
root's entries into a recursive copy of the fallback's root
(`config.go` 263-274, 373-386).  On the heap model, every address that
existed before the call — in particular every Object reachable from
the fallback's tree — still holds exactly the same entry list
afterwards: the merge writes only inside the freshly copied region. -/
theorem withFallbackH_frame (fuel : Nat) (h : Heap) (ca fa : Nat)
    (h' : Heap) (r : HVal)
    (hwf : heapWF h = true) (hca : ca < h.objs.length)
    (hrun : withFallbackH fuel h (HVal.hobj ca) (HVal.hobj fa) = some (h', r)) :
    ∀ b, b < h.objs.length → heapGet h' b = heapGet h b := by
  cases hcp : copyObjH fuel h fa with
  | none => simp [withFallbackH, hcp] at hrun
  | some pr =>
      obtain ⟨h1, ra⟩ := pr
      cases hmg : mergeH fuel h1 ra ((heapGet h1 ca).getD []) with
      | none => simp [withFallbackH, hcp, hmg] at hrun
      | some h2 =>
          simp only [withFallbackH, hcp, hmg, Option.some.injEq,
            Prod.mk.injEq] at hrun
          obtain ⟨hh', hr⟩ := hrun
          subst hh'
          have hold : OldHeapOk h h.objs.length := heapWF_OldHeapOk h hwf
          cases fuel with
          | zero => simp [copyObjH] at hcp
          | succ f =>
              have hfa : fa < h.objs.length := by
                cases hga : heapGet h fa with
                | none => simp [copyObjH, hga] at hcp
                | some esf => exact heapGet_lt h fa esf hga
              obtain ⟨hlen1, hfr1, hstrict1, hbounds1⟩ :=
                (copy_spec h.objs.length (f + 1)).1 h fa h1 ra hcp
                  (Nat.le_refl _) hold hfa
              have hsrc : heapGet h1 ca = heapGet h ca := hfr1 ca hca
              have hCA : (∀ kv ∈ (heapGet h1 ca).getD [],
                    valAddrsBelow kv.2 h.objs.length = true) ∧
                  (keysOf ((heapGet h1 ca).getD [])).Nodup := by
                rw [hsrc]
                cases hgca : heapGet h ca with
                | none => simp [keysOf]
                | some esca => simpa using hold ca hca esca hgca
              have hold1 : OldHeapOk h1 h.objs.length := by
                intro x hx esx hg
                refine hold x hx esx ?_
                rw [← hfr1 x hx]
                exact hg
              have hso : StrictOn h.objs.length f h1 ra
                  (keysOf ((heapGet h1 ca).getD [])) :=
                StrictN_StrictOn _ f h1 ra _ hCA.2 hstrict1
              have hM := merge_frame h.objs.length (f + 1) f h1 ra
                ((heapGet h1 ca).getD []) h2 hmg hso hCA.1 hCA.2 hold1
              intro b hblt
              have h2b : heapGet h2 b = heapGet h1 b := by
                by_contra hc
                have := StrictOn_sAddrs_ge _ f h1 ra _ hso b (hM b hc)
                omega
              rw [h2b]
              exact hfr1 b hblt

/-- Witness: a two-object heap (current root `{x: p0}` at address 0,
fallback root `{y: p1}` at address 1); `WithFallback` copies the
fallback to a fresh address 2 and merges there, leaving the fallback's
object at address 1 untouched. -/
theorem withFallbackH_frame_witness :
    heapGet ⟨[[("x", HVal.hprim 0)], [("y", HVal.hprim 1)],
              [("y", HVal.hprim 1), ("x", HVal.hprim 0)]]⟩ 1
      = heapGet ⟨[[("x", HVal.hprim 0)], [("y", HVal.hprim 1)]]⟩ 1 :=
  withFallbackH_frame 4 ⟨[[("x", HVal.hprim 0)], [("y", HVal.hprim 1)]]⟩ 0 1
    ⟨[[("x", HVal.hprim 0)], [("y", HVal.hprim 1)],
      [("y", HVal.hprim 1), ("x", HVal.hprim 0)]]⟩ (HVal.hobj 2)
    (by simp [heapWF, keysOf, valAddrsBelow]) (by simp) rfl 1 (by simp)

end Hocon
